import Mathlib

/-!
Verification of the json-data-forge core against its specification.

The development shallowly embeds the TypeScript sources
(src/services/localService.ts, src/services/geminiService.ts, src/App.tsx):
JavaScript numbers are modelled as extended rationals (JsNum: a finite
rational, positive or negative infinity, or NaN; double rounding is not
modelled, which is exact on all integer arithmetic exercised here), JSON
values as an inductive JValue that also carries the JavaScript undefined
value, and the nondeterministic host primitives (Math.random,
crypto.randomUUID, Date.now, Date.prototype.toISOString) as an explicit
environment record that theorems quantify over.
-/

set_option maxHeartbeats 1000000

namespace JsonForge

attribute [local semireducible] Rat.mul Rat.add Rat.sub Rat.inv Rat.ofScientific

/-- Model of a JavaScript number: a finite rational, an infinity, or NaN.
Double-precision rounding is not modelled. -/
inductive JsNum where
  | fin (q : Rat)
  | inf
  | neginf
  | nan
  deriving DecidableEq, Repr

namespace JsNum

/-- Test used to embed the isNaN checks of the source. -/
def isNaN : JsNum → Bool
  | nan => true
  | _ => false

/-- JavaScript addition on numbers (the numeric branch of the plus operator). -/
def add : JsNum → JsNum → JsNum
  | fin a, fin b => fin (a + b)
  | fin _, inf => inf
  | fin _, neginf => neginf
  | inf, fin _ => inf
  | inf, inf => inf
  | inf, neginf => nan
  | neginf, fin _ => neginf
  | neginf, neginf => neginf
  | neginf, inf => nan
  | _, _ => nan

/-- JavaScript subtraction on numbers. -/
def sub : JsNum → JsNum → JsNum
  | fin a, fin b => fin (a - b)
  | fin _, inf => neginf
  | fin _, neginf => inf
  | inf, fin _ => inf
  | inf, neginf => inf
  | inf, inf => nan
  | neginf, fin _ => neginf
  | neginf, inf => neginf
  | neginf, neginf => nan
  | _, _ => nan

/-- JavaScript multiplication on numbers. -/
def mul : JsNum → JsNum → JsNum
  | fin a, fin b => fin (a * b)
  | fin a, inf => if a = 0 then nan else if 0 < a then inf else neginf
  | fin a, neginf => if a = 0 then nan else if 0 < a then neginf else inf
  | inf, fin b => if b = 0 then nan else if 0 < b then inf else neginf
  | neginf, fin b => if b = 0 then nan else if 0 < b then neginf else inf
  | inf, inf => inf
  | inf, neginf => neginf
  | neginf, inf => neginf
  | neginf, neginf => inf
  | _, _ => nan

/-- JavaScript division on numbers (positive zero only; negative zero is not
modelled). -/
def div : JsNum → JsNum → JsNum
  | fin a, fin b =>
      if b = 0 then (if a = 0 then nan else if 0 < a then inf else neginf)
      else fin (a / b)
  | fin _, inf => fin 0
  | fin _, neginf => fin 0
  | inf, fin b => if 0 ≤ b then inf else neginf
  | neginf, fin b => if 0 ≤ b then neginf else inf
  | _, _ => nan

/-- Math.floor. -/
def floorJ : JsNum → JsNum
  | fin q => fin (Int.floor q : Int)
  | inf => inf
  | neginf => neginf
  | nan => nan

/-- Truncation toward zero of a rational, as performed by JavaScript when an
integral value is required. -/
def ratTrunc (q : Rat) : Int :=
  if 0 ≤ q then Int.floor q else - Int.floor (-q)

/-- JavaScript remainder operator on numbers (sign follows the dividend). -/
def modJ : JsNum → JsNum → JsNum
  | fin a, fin b => if b = 0 then nan else fin (a - b * (ratTrunc (a / b) : Int))
  | fin a, inf => fin a
  | fin a, neginf => fin a
  | _, _ => nan

end JsNum

/-! ### String helpers embedding the JavaScript string operations used by the
source (ASCII-oriented; the configuration keys the spec discusses are ASCII). -/

/-- Lower-casing of one character as performed by String.prototype.toLowerCase
on ASCII input. -/
def lcChar (c : Char) : Char :=
  match c with
  | 'A' => 'a' | 'B' => 'b' | 'C' => 'c' | 'D' => 'd' | 'E' => 'e' | 'F' => 'f'
  | 'G' => 'g' | 'H' => 'h' | 'I' => 'i' | 'J' => 'j' | 'K' => 'k' | 'L' => 'l'
  | 'M' => 'm' | 'N' => 'n' | 'O' => 'o' | 'P' => 'p' | 'Q' => 'q' | 'R' => 'r'
  | 'S' => 's' | 'T' => 't' | 'U' => 'u' | 'V' => 'v' | 'W' => 'w' | 'X' => 'x'
  | 'Y' => 'y' | 'Z' => 'z'
  | d => d

/-- Embedding of String.prototype.toLowerCase (ASCII range). -/
def lcStr (s : String) : String :=
  ⟨s.data.map lcChar⟩

/-- Embedding of String.prototype.endsWith. -/
def endsW (s suf : String) : Bool :=
  suf.data.isSuffixOf s.data

/-- Embedding of String.prototype.includes. -/
def includesSub (s sub : String) : Bool :=
  decide (sub.data <:+: s.data)

/-- White-space test of the JavaScript trimming performed by Number(string). -/
def jsWs (c : Char) : Bool :=
  c = ' ' ∨ c = '\t' ∨ c = '\n' ∨ c = '\r' ∨ c = '\x0b' ∨ c = '\x0c'

/-- Numeric value of a decimal digit list, if every character is a digit and
the list is nonempty. -/
def decDigitsVal : List Char → Option Nat
  | [] => none
  | cs => cs.foldlM (fun acc c => if c.isDigit then some (acc * 10 + (c.toNat - 48)) else none) 0

/-- Numeric value of a hexadecimal digit list, if nonempty and well formed. -/
def hexDigitsVal : List Char → Option Nat
  | [] => none
  | cs => cs.foldlM (fun acc c =>
      if c.isDigit then some (acc * 16 + (c.toNat - 48))
      else if 'a' ≤ c ∧ c ≤ 'f' then some (acc * 16 + (c.toNat - 87))
      else if 'A' ≤ c ∧ c ≤ 'F' then some (acc * 16 + (c.toNat - 55))
      else none) 0

/-- Digit list in a given base for the 0o and 0b literal forms. -/
def baseDigitsVal (b : Nat) : List Char → Option Nat
  | [] => none
  | cs => cs.foldlM (fun acc c =>
      if c.isDigit ∧ c.toNat - 48 < b then some (acc * b + (c.toNat - 48)) else none) 0

/-- Decimal mantissa with optional fraction: digits, optionally a dot and more
digits, at least one digit in total. Returns the value as a rational. -/
def parseMantissa (cs : List Char) : Option Rat :=
  match cs.splitOn '.' with
  | [ip] => (decDigitsVal ip).map (fun n => (n : Rat))
  | [ip, fp] =>
      if ip = [] ∧ fp = [] then none
      else
        let ipv : Option Nat := if ip = [] then some 0 else decDigitsVal ip
        let fpv : Option Nat := if fp = [] then some 0 else decDigitsVal fp
        match ipv, fpv with
        | some i, some f => some ((i : Rat) + (f : Rat) / ((10 : Rat) ^ fp.length))
        | _, _ => none
  | _ => none

/-- Optionally signed nonempty decimal exponent. -/
def parseExp : List Char → Option Int
  | '+' :: r => (decDigitsVal r).map (fun n => (n : Int))
  | '-' :: r => (decDigitsVal r).map (fun n => -(n : Int))
  | r => (decDigitsVal r).map (fun n => (n : Int))

/-- Decimal literal with optional exponent part. -/
def parseDec (cs : List Char) : Option Rat :=
  match cs.splitOnP (fun c => c = 'e' ∨ c = 'E') with
  | [m] => parseMantissa m
  | [m, e] =>
      match parseMantissa m, parseExp e with
      | some mv, some ev => some (mv * (10 : Rat) ^ ev)
      | _, _ => none
  | _ => none

/-- Unsigned numeric literal: Infinity, a 0x/0o/0b radix literal, or decimal. -/
def parseUnsigned (cs : List Char) : JsNum :=
  if cs = "Infinity".data then .inf
  else match cs with
  | '0' :: 'x' :: r => match hexDigitsVal r with | some n => .fin (n : Rat) | none => .nan
  | '0' :: 'X' :: r => match hexDigitsVal r with | some n => .fin (n : Rat) | none => .nan
  | '0' :: 'o' :: r => match baseDigitsVal 8 r with | some n => .fin (n : Rat) | none => .nan
  | '0' :: 'O' :: r => match baseDigitsVal 8 r with | some n => .fin (n : Rat) | none => .nan
  | '0' :: 'b' :: r => match baseDigitsVal 2 r with | some n => .fin (n : Rat) | none => .nan
  | '0' :: 'B' :: r => match baseDigitsVal 2 r with | some n => .fin (n : Rat) | none => .nan
  | _ => match parseDec cs with | some q => .fin q | none => .nan

/-- Signed numeric literal (no radix prefixes allowed after a sign, matching
JavaScript). -/
def parseSigned : List Char → JsNum
  | '+' :: r =>
      if r = "Infinity".data then .inf
      else (match parseDec r with | some q => .fin q | none => .nan)
  | '-' :: r =>
      if r = "Infinity".data then .neginf
      else (match parseDec r with | some q => .fin (-q) | none => .nan)
  | cs => parseUnsigned cs

/-- Embedding of the Number(string) coercion: trim, empty means zero,
otherwise parse a (signed) numeric literal; failures give NaN. -/
def jsStrToNumber (s : String) : JsNum :=
  let t := ((s.data.dropWhile jsWs).reverse.dropWhile jsWs).reverse
  if t = [] then .fin 0 else parseSigned t

/-- Test used by the unflattening walk: a path segment counts as an array
index when Number(segment) is not NaN. -/
def jsNumericStr (s : String) : Bool :=
  ¬ (jsStrToNumber s).isNaN

/-- Canonical array index string (what JavaScript treats as a real element
index when reading or writing an array property): nonempty, all digits, and
no leading zero unless the string is exactly the digit zero. -/
def canonIdx (s : String) : Option Nat :=
  match s.data with
  | [] => none
  | ['0'] => some 0
  | '0' :: _ => none
  | cs => if cs.all Char.isDigit then decDigitsVal cs else none

/-! ### JSON values -/

/-- A JavaScript value as manipulated by the data generator: JSON scalars,
arrays and objects (ordered field lists), plus the undefined value, which the
generation engine can store into a row. -/
inductive JValue where
  | str (s : String)
  | num (n : JsNum)
  | bool (b : Bool)
  | null
  | undef
  | arr (xs : List JValue)
  | obj (fs : List (String × JValue))
  deriving Repr

/-- JavaScript truthiness. -/
def jsTruthy : JValue → Bool
  | .str s => s ≠ ""
  | .num (.fin q) => q ≠ 0
  | .num .nan => false
  | .num _ => true
  | .bool b => b
  | .null => false
  | .undef => false
  | .arr _ => true
  | .obj _ => true

/-- String rendering of a number. Integers render exactly as JavaScript does;
for non-integral rationals the shortest-double-representation rule is
approximated by num/den notation (no theorem in this file depends on it). -/
def numToString : JsNum → String
  | .fin q => if q.den = 1 then toString q.num else toString q.num ++ "/" ++ toString q.den
  | .inf => "Infinity"
  | .neginf => "-Infinity"
  | .nan => "NaN"

mutual

/-- Embedding of the String(value) coercion. -/
def jsToString : JValue → String
  | .str s => s
  | .num n => numToString n
  | .bool b => if b then "true" else "false"
  | .null => "null"
  | .undef => "undefined"
  | .arr xs => joinComma xs
  | .obj _ => "[object Object]"

/-- Array-to-string coercion: elements joined by commas, with null and
undefined elements rendering as empty. -/
def joinComma : List JValue → String
  | [] => ""
  | [v] => (match v with | .null => "" | .undef => "" | w => jsToString w)
  | v :: rest =>
      (match v with | .null => "" | .undef => "" | w => jsToString w) ++ "," ++ joinComma rest

end

/-- Embedding of the Number(value) coercion. -/
def jsToNumber : JValue → JsNum
  | .num n => n
  | .bool b => .fin (if b then 1 else 0)
  | .null => .fin 0
  | .undef => .nan
  | .str s => jsStrToNumber s
  | v => jsStrToNumber (jsToString v)

/-- Does the plus operator see this operand as a string after ToPrimitive? -/
def isStrLike : JValue → Bool
  | .str _ => true
  | .arr _ => true
  | .obj _ => true
  | _ => false

/-- Embedding of the JavaScript plus operator (used by the increment counter
update). -/
def jsAdd (a b : JValue) : JValue :=
  if isStrLike a ∨ isStrLike b then .str (jsToString a ++ jsToString b)
  else .num (JsNum.add (jsToNumber a) (jsToNumber b))

/-- The nullish coalescing operator applied to an optional property read: an
absent property reads as undefined, and null or undefined select the
default. -/
def ncJ : Option JValue → JValue → JValue
  | some .null, d => d
  | some .undef, d => d
  | some v, _ => v
  | none, d => d

/-- The logical-or defaulting idiom applied to an optional property read: any
falsy value selects the default. -/
def orJ : Option JValue → JValue → JValue
  | some v, d => if jsTruthy v then v else d
  | none, d => d

/-- Number.isInteger. -/
def jsIsInteger : JsNum → Bool
  | .fin q => q.den = 1
  | _ => false

/-! ### Data model

The enum and interface declarations live in types.ts, which is not among the
provided sources; the shapes below are modelled from the spec data model
(FieldType, GenerationStrategy, FieldOptions, GroupingConfig, FieldConfig)
and from how the provided code reads them. -/

/-- Modelled from the spec: FieldType classifies a leaf value. -/
inductive FieldType where
  | string | number | boolean | array | null
  deriving DecidableEq, Repr

/-- Modelled from the spec: the enumerated generation strategies. -/
inductive GenerationStrategy where
  | increment | random_int | random_float | enum | uuid | name | email | date
  | address | phone | sentence | static | regex | ai_context
  deriving DecidableEq, Repr

/-- Grouping configuration. The strategy tag is kept as a raw string since the
code only compares it against the literal string even. -/
structure GroupingConfig where
  strategy : String
  countPerGroup : Option JValue := none
  resetFields : Option (List String) := none
  deriving Repr

/-- Field options: an open map of named parameters in the source, modelled as
a record of optional values (absent field reads as undefined). -/
structure FieldOptions where
  min : Option JValue := none
  max : Option JValue := none
  step : Option JValue := none
  start : Option JValue := none
  precision : Option JValue := none
  values : Option (List JValue) := none
  format : Option JValue := none
  pattern : Option JValue := none
  staticValue : Option JValue := none
  groupingConfig : Option GroupingConfig := none
  deriving Repr

/-- One field of the inferred schema. -/
structure FieldConfig where
  key : String
  type : FieldType
  strategy : GenerationStrategy
  options : Option FieldOptions := none
  description : Option String := none
  sampleValue : Option JValue := none
  deriving Repr

/-! ### Local strategy inference (determineStrategy in localService.ts) -/

/-- Hexadecimal digit, either case (the uuid regex carries the i flag). -/
def isHexChar (c : Char) : Bool :=
  c.isDigit ∨ ('a' ≤ c ∧ c ≤ 'f') ∨ ('A' ≤ c ∧ c ≤ 'F')

/-- The anchored uuid regex of determineStrategy: five hyphen-separated hex
groups of lengths 8, 4, 4, 4 and 12. -/
def uuidLike (s : String) : Bool :=
  match s.data.splitOn '-' with
  | [a, b, c, d, e] =>
      a.length = 8 ∧ b.length = 4 ∧ c.length = 4 ∧ d.length = 4 ∧ e.length = 12 ∧
      (a ++ b ++ c ++ d ++ e).all isHexChar
  | _ => false

/-- The unanchored date-shape regex of determineStrategy: four digits, a
hyphen, two digits, a hyphen, two digits at the start of the string. -/
def isoDatePre (s : String) : Bool :=
  match s.data with
  | a :: b :: c :: d :: '-' :: e :: f :: '-' :: g :: h :: _ =>
      a.isDigit ∧ b.isDigit ∧ c.isDigit ∧ d.isDigit ∧ e.isDigit ∧ f.isDigit ∧
      g.isDigit ∧ h.isDigit
  | _ => false

/-- Result triple of determineStrategy. -/
structure StrategyChoice where
  strategy : GenerationStrategy
  options : Option FieldOptions := none
  description : Option String := none
  deriving Repr

/-- Embedding of determineStrategy from localService.ts. The host Date.parse
primitive is taken as a parameter (it is only consulted for string values
whose key mentions date, time or at). -/
def determineStrategy (dateParse : String → JsNum) (key : String) (value : JValue) :
    StrategyChoice :=
  let k := lcStr key
  match value with
  | .null => ⟨.static, some { staticValue := some (.str "null") }, none⟩
  | .num n =>
        let m : JValue := .num (JsNum.mul n (.fin 2))
        if (k = "id" ∨ endsW k "_id" ∨ endsW k "Id") ∧ jsIsInteger n then
          ⟨.increment, some { start := some (.num n), step := some (.num (.fin 1)) }, none⟩
        else if jsIsInteger n then
          ⟨.random_int,
           some { min := some (.num (.fin 0)), max := some (orJ (some m) (.num (.fin 100))) },
           none⟩
        else
          ⟨.random_float,
           some { min := some (.num (.fin 0)), max := some (orJ (some m) (.num (.fin 100))),
                  precision := some (.num (.fin 2)) },
           none⟩
    | .bool _ => ⟨.enum, some { values := some [.str "true", .str "false"] }, none⟩
    | .str s =>
        if uuidLike s then ⟨.uuid, none, none⟩
        else if isoDatePre s ∨
            (jsTruthy (.num (dateParse s)) ∧
              (includesSub k "date" ∨ includesSub k "time" ∨ includesSub k "_at")) then
          ⟨.date, some { format := some (.str "YYYY-MM-DD") }, none⟩
        else if includesSub k "email" then ⟨.email, none, none⟩
        else if includesSub k "name" ∨ includesSub k "user" ∨ includesSub k "author" then
          ⟨.name, none, none⟩
        else if includesSub k "phone" ∨ includesSub k "tel" then ⟨.phone, none, none⟩
        else if includesSub k "address" ∨ includesSub k "city" ∨ includesSub k "street" ∨
            includesSub k "country" then
          ⟨.address, none, none⟩
        else ⟨.ai_context, none, some "Local: Random String"⟩
    | v => ⟨.static, some { staticValue := some (.str (jsToString v)) }, none⟩

/-! ### Ordered string-keyed maps, the shape of a JavaScript object record:
first write fixes the position of a key, later writes update it in place. -/

/-- Property read on an ordered field list; an absent key reads as
undefined. -/
def lookupKey : List (String × JValue) → String → JValue
  | [], _ => .undef
  | (k, v) :: rest, q => if k = q then v else lookupKey rest q

/-- Property write on an ordered field list. -/
def setKey : List (String × JValue) → String → JValue → List (String × JValue)
  | [], q, v => [(q, v)]
  | (k, w) :: rest, q, v => if k = q then (k, v) :: rest else (k, w) :: setKey rest q v

/-! ### The path codec: flattenObject from localService.ts -/

mutual

/-- Loop of flattenObject over the own enumerable fields of an object,
accumulating writes into the result map. -/
def flatFieldsA : List (String × JValue) → String → List (String × JValue) →
    List (String × JValue)
  | [], _, acc => acc
  | (k, v) :: rest, pfx, acc =>
      let newKey := if pfx = "" then k else pfx ++ "." ++ k
      flatFieldsA rest pfx (flatPlace v newKey acc)

/-- Loop of flattenObject over the indices of an array (a for-in loop over an
array enumerates its index strings in order). -/
def flatIdxA : List JValue → Nat → String → List (String × JValue) →
    List (String × JValue)
  | [], _, _, acc => acc
  | v :: rest, i, pfx, acc =>
      let newKey := if pfx = "" then toString i else pfx ++ "." ++ toString i
      flatIdxA rest (i + 1) pfx (flatPlace v newKey acc)

/-- Body of the flattenObject loop for a single key and value: nested objects
recurse, arrays are sampled by their first element (none when empty), leaves
are written verbatim. -/
def flatPlace : JValue → String → List (String × JValue) → List (String × JValue)
  | .obj fs, newKey, acc => flatFieldsA fs newKey acc
  | .arr [], _, acc => acc
  | .arr (x :: _), newKey, acc =>
      (match x with
       | .obj fs => flatFieldsA fs (newKey ++ ".0") acc
       | .arr ys => flatIdxA ys 0 (newKey ++ ".0") acc
       | w => setKey acc (newKey ++ ".0") w)
  | w, newKey, acc => setKey acc newKey w

end

/-- Embedding of flattenObject. A for-in loop over a primitive enumerates
nothing in this model (the index properties of string primitives are not
modelled; no theorem below applies flattenObject to a primitive). -/
def flattenObject (v : JValue) (pfx : String) : List (String × JValue) :=
  match v with
  | .obj fs => flatFieldsA fs pfx []
  | .arr xs => flatIdxA xs 0 pfx []
  | _ => []

/-! ### The dot-path reconstruction performed per row inside
generateLocalData (the unflatten side of the path codec) -/

/-- Splitting on the dot character, exactly as String.prototype.split with a
single-character separator: empty pieces are kept. -/
def splitDotsAux : List Char → List Char → List String
  | [], cur => [⟨cur.reverse⟩]
  | '.' :: rest, cur => ⟨cur.reverse⟩ :: splitDotsAux rest []
  | c :: rest, cur => splitDotsAux rest (c :: cur)

/-- Embedding of key.split on the dot character. -/
def splitDots (s : String) : List String := splitDotsAux s.data []

/-- Join of path segments with dots, the inverse direction used in proofs. -/
def joinDots : List String → String
  | [] => ""
  | [s] => s
  | s :: rest => s ++ "." ++ joinDots rest

/-- Write into an array at a true element index, padding any gap with
undefined as a dense stand-in for a sparse array. -/
def arrSetIdx (xs : List JValue) (i : Nat) (v : JValue) : JValue :=
  if i < xs.length then .arr (xs.set i v)
  else .arr (xs ++ List.replicate (i - xs.length) .undef ++ [v])

/-- Property read during the unflattening walk. Reads on primitives give
undefined (index properties of string primitives are not modelled; no theorem
below reaches that corner). -/
def getProp : JValue → String → JValue
  | .obj fs, k => lookupKey fs k
  | .arr xs, k =>
      (match canonIdx k with
       | some i => (xs.get? i).getD .undef
       | none => if k = "length" then .num (.fin xs.length) else .undef)
  | _, _ => (.undef)

/-- Property write during the unflattening walk. A non-index property write
on an array and any write on a primitive leave the value unchanged (the
latter matches sloppy-mode JavaScript; the former is unreachable in the
theorems below). -/
def setProp : JValue → String → JValue → JValue
  | .obj fs, k, v => .obj (setKey fs k v)
  | .arr xs, k, v =>
      (match canonIdx k with
       | some i => arrSetIdx xs i v
       | none => .arr xs)
  | c, _, _ => c

/-- The final assignment of the walk: on an array with a numeric last
segment the source indexes with the coerced number, otherwise a plain
property write; assigning into null or undefined throws. -/
def assignLast : JValue → String → JValue → Option JValue
  | .arr xs, k, v =>
      if jsNumericStr k then
        match jsStrToNumber k with
        | .fin q =>
            if q.den = 1 ∧ 0 ≤ q.num then some (arrSetIdx xs q.num.toNat v)
            else some (.arr xs)
        | _ => some (.arr xs)
      else some (setProp (.arr xs) k v)
  | .obj fs, k, v => some (.obj (setKey fs k v))
  | .null, _, _ => none
  | .undef, _, _ => none
  | c, _, _ => some c

/-- The per-key walk of the unflatten loop in generateLocalData: descend the
path, creating an array or object at an undefined slot depending on whether
the next segment is numeric, then assign at the last segment. A read through
null or undefined throws, which the option models. -/
def walkAssign : JValue → List String → JValue → Option JValue
  | c, [], _ => some c
  | c, [last], v => assignLast c last v
  | c, p :: rest, v =>
      match c with
      | .obj _ | .arr _ =>
          let c1 :=
            match getProp c p with
            | .undef => setProp c p (if jsNumericStr rest.headI then .arr [] else .obj [])
            | _ => c
          (walkAssign (getProp c1 p) rest v).map (fun w => setProp c1 p w)
      | .null => none
      | .undef => none
      | _ => walkAssign .undef rest v

/-- Embedding of the unflatten step of generateLocalData: starting from an
empty object, insert every flat entry along its split path. -/
def unflattenRow (entries : List (String × JValue)) : Option JValue :=
  entries.foldlM (fun acc e => walkAssign acc (splitDots e.1) e.2) (.obj [])

/-! ### The structural-change classifier (isStructuralChange in App.tsx) -/

/-- Truthiness of the optional chain that reads groupingConfig beneath the
optional options record. -/
def hasGroupCfg (f : FieldConfig) : Bool :=
  (f.options.bind (fun o => o.groupingConfig)).isSome

/-- Embedding of isStructuralChange from App.tsx, including its final
fall-through branches that return false either way. -/
def isStructuralChange (f1 f2 : FieldConfig) : Bool :=
  if f1.key ≠ f2.key then true
  else if f1.type ≠ f2.type then true
  else if f1.strategy ≠ f2.strategy then true
  else if hasGroupCfg f1 ≠ hasGroupCfg f2 then true
  else if (f1.options.isNone ∧ f2.options.isSome) ∨ (f1.options.isSome ∧ f2.options.isNone)
    then false
  else false

/-! ### The delegated-code executor (executeGeneratedCode in
geminiService.ts). The synthesized program is modelled abstractly as a
function from the two live arguments to either a thrown message or a result
value; the executor wraps any throw or non-array result. -/

/-- Embedding of executeGeneratedCode. -/
def executeGeneratedCode (run : Nat → List FieldConfig → Except String JValue)
    (count : Nat) (fields : List FieldConfig) : Except String (List JValue) :=
  match run count fields with
  | .error msg => .error ("Failed to execute generation logic: " ++ msg)
  | .ok v =>
      match v with
      | .arr xs => .ok xs
      | _ =>
          .error ("Failed to execute generation logic: " ++
            "Generated code did not return an Array.")

/-! ### The local generation engine (generateLocalData in localService.ts)

The nondeterministic host primitives are gathered into an environment the
theorems quantify over: a stream of Math.random results, a stream of
crypto.randomUUID results, the clock, and the host date formatter. -/

/-- Host environment of one generation run. -/
structure Env where
  rand : Nat → Rat
  uuid : Nat → String
  nowMs : Rat
  iso : Int → String

/-- Mutable state of one generation run: the state object of counters plus
the number of random and uuid draws consumed so far. -/
structure GState where
  vars : List (String × JValue)
  r : Nat
  u : Nat

/-- Consume one Math.random draw. -/
def drawR (env : Env) (s : GState) : Rat × GState :=
  (env.rand s.r, { s with r := s.r + 1 })

/-- Array element read with a number index, as arr[idx] behaves for a
numeric idx: an in-range integer selects the element, anything else reads
as undefined. -/
def jsnIndexList (xs : List JValue) (n : JsNum) : JValue :=
  match n with
  | .fin q =>
      if q.den = 1 ∧ 0 ≤ q.num ∧ q.num < xs.length then (xs.get? q.num.toNat).getD .undef
      else .undef
  | _ => (.undef)

/-- String list pick used by the name, email and address generators; an
out-of-range index interpolates as the text undefined. -/
def pickStr (l : List String) (i : Int) : String :=
  if h : 0 ≤ i ∧ i.toNat < l.length then l.get ⟨i.toNat, h.2⟩ else "undefined"

/-- Rounding half away from zero, the toFixed approximation used by the
random float generator model. -/
def ratRoundAway (q : Rat) : Int :=
  if 0 ≤ q then Int.floor (q + 1 / 2) else - Int.floor (-q + 1 / 2)

/-- Model of parseFloat of toFixed with the given precision. A NaN precision
truncates to zero as in JavaScript; a negative precision would throw and is
modelled as zero (unreachable in the theorems below). -/
def toFixedRound (x p : JsNum) : JsNum :=
  match x with
  | .fin q =>
      let np : Nat := (match p with | .fin pq => JsNum.ratTrunc pq | _ => 0).toNat
      .fin ((ratRoundAway (q * 10 ^ np) : Int) / (10 ^ np : Rat))
  | y => y

/-- Strip from the first capital T onward, the split used to shorten an ISO
timestamp to a plain date. -/
def takeBeforeT (s : String) : String :=
  ⟨s.data.takeWhile (fun c => c ≠ 'T')⟩

/-- Fixed word lists of the name, email and address generators. -/
def namesFirst : List String :=
  ["James", "Mary", "John", "Patricia", "Robert", "Jennifer", "Michael", "Linda",
   "David", "Elizabeth"]

/-- Last names of the name generator. -/
def namesLast : List String :=
  ["Smith", "Johnson", "Williams", "Brown", "Jones", "Garcia", "Miller", "Davis"]

/-- Mailbox local parts of the email generator. -/
def emailNames : List String := ["user", "test", "dev", "admin", "guest"]

/-- Domains of the email generator. -/
def emailDomains : List String := ["gmail.com", "yahoo.com", "outlook.com", "example.org"]

/-- Street names of the address generator. -/
def streetsList : List String := ["Main St", "Oak Ave", "Pine Rd", "Maple Ln", "Cedar Blvd"]

/-- Cities of the address generator. -/
def citiesList : List String := ["New York", "Los Angeles", "Chicago", "Houston", "Phoenix"]

/-- Embedding of the generators table: one pure step per strategy, reading
the options and threading the run state. -/
def runGen (env : Env) (strat : GenerationStrategy) (key : String) (opts : FieldOptions)
    (s : GState) : JValue × GState :=
  match strat with
  | .increment =>
      let s1 :=
        match lookupKey s.vars key with
        | .undef =>
            { s with vars := setKey s.vars key (.num (jsToNumber (orJ opts.start (.num (.fin 1))))) }
        | _ => s
      let val := lookupKey s1.vars key
      let s2 :=
        { s1 with vars :=
            setKey s1.vars key (jsAdd val (.num (jsToNumber (orJ opts.step (.num (.fin 1)))))) }
      (val, s2)
  | .random_int =>
      let mn := jsToNumber (ncJ opts.min (.num (.fin 0)))
      let mx := jsToNumber (ncJ opts.max (.num (.fin 100)))
      let (r, s1) := drawR env s
      (.num (JsNum.add (JsNum.floorJ (JsNum.mul (.fin r) (JsNum.add (JsNum.sub mx mn) (.fin 1)))) mn),
       s1)
  | .random_float =>
      let mn := jsToNumber (ncJ opts.min (.num (.fin 0)))
      let mx := jsToNumber (ncJ opts.max (.num (.fin 100)))
      let pr := jsToNumber (ncJ opts.precision (.num (.fin 2)))
      let (r, s1) := drawR env s
      (.num (toFixedRound (JsNum.add (JsNum.mul (.fin r) (JsNum.sub mx mn)) mn) pr), s1)
  | .enum =>
      let vals := opts.values.getD []
      if vals.length = 0 then
        (orJ (opts.values.bind (fun vs => vs.get? 0)) (.str "enum"), s)
      else
        let (r, s1) := drawR env s
        (jsnIndexList vals (JsNum.floorJ (JsNum.mul (.fin r) (.fin vals.length))), s1)
  | .uuid => (.str (env.uuid s.u), { s with u := s.u + 1 })
  | .name =>
      let (r1, s1) := drawR env s
      let (r2, s2) := drawR env s1
      (.str (pickStr namesFirst (Int.floor (r1 * (namesFirst.length : Rat))) ++ " " ++
             pickStr namesLast (Int.floor (r2 * (namesLast.length : Rat)))), s2)
  | .email =>
      let (r1, s1) := drawR env s
      let (r2, s2) := drawR env s1
      let (r3, s3) := drawR env s2
      (.str (pickStr emailNames (Int.floor (r1 * (emailNames.length : Rat))) ++ "." ++
             toString (Int.floor (r2 * (999 : Rat))) ++ "@" ++
             pickStr emailDomains (Int.floor (r3 * (emailDomains.length : Rat)))), s3)
  | .phone =>
      let (r1, s1) := drawR env s
      let (r2, s2) := drawR env s1
      let (r3, s3) := drawR env s2
      (.str ("+1-" ++ toString (Int.floor (r1 * 900) + 100) ++ "-" ++
             toString (Int.floor (r2 * 900) + 100) ++ "-" ++
             toString (Int.floor (r3 * 9000) + 1000)), s3)
  | .date =>
      let (r, s1) := drawR env s
      let endT := env.nowMs
      let startT := endT - 365 * 24 * 60 * 60 * 1000
      let d := startT + r * (endT - startT)
      let isoS := env.iso (JsNum.ratTrunc d)
      (match opts.format with
       | some (.str "YYYY-MM-DD") => (.str (takeBeforeT isoS), s1)
       | _ => (.str isoS, s1))
  | .address =>
      let (r1, s1) := drawR env s
      let (r2, s2) := drawR env s1
      let (r3, s3) := drawR env s2
      (.str (toString (Int.floor (r1 * 9999)) ++ " " ++
             pickStr streetsList (Int.floor (r2 * (streetsList.length : Rat))) ++ ", " ++
             pickStr citiesList (Int.floor (r3 * (citiesList.length : Rat)))), s3)
  | .static => (opts.staticValue.getD .undef, s)
  | .ai_context => (.str "Lorem ipsum (Local generated string)", s)
  | .regex => (.str ("regex_sim(" ++ jsToString (orJ opts.pattern (.str "?")) ++ ")"), s)
  | .sentence => (.str "The quick brown fox jumps over the lazy dog.", s)

/-- Group block size as computed in the grouping branch: for the even
strategy the floor of count over the value count (at least one), otherwise
the raw countPerGroup defaulted to one by truthiness. -/
def effSize (count : Nat) (gc : GroupingConfig) (values : List JValue) : JValue :=
  let len := if values.length = 0 then 1 else values.length
  if gc.strategy = "even" then .num (.fin ((max 1 (count / len) : Nat) : Rat))
  else orJ gc.countPerGroup (.num (.fin 1))

/-- Cyclic value index of row i: floor of i over the block size, modulo the
value count floored at one. -/
def groupIdx (i : Nat) (sizeV : JValue) (len : Nat) : JsNum :=
  JsNum.modJ (JsNum.floorJ (JsNum.div (.fin (i : Rat)) (jsToNumber sizeV))) (.fin (len : Rat))

/-- The value a grouping field stores at row i, before any static-type
coercion. -/
def groupVal (count i : Nat) (gc : GroupingConfig) (values : List JValue) : JValue :=
  let len := if values.length = 0 then 1 else values.length
  jsnIndexList values (groupIdx i (effSize count gc values) len)

/-- Group boundary test of row i: positive and with remainder zero against
the block size under the JavaScript remainder operator. -/
def atBoundary (i : Nat) (sizeV : JValue) : Bool :=
  0 < i ∧ JsNum.modJ (.fin (i : Rat)) (jsToNumber sizeV) = .fin 0

/-- One step of the reset pass: a listed key whose first matching field uses
the increment strategy has its counter set back to that field configured
start. -/
def resetStep (fields : List FieldConfig) (vs : List (String × JValue)) (rk : String) :
    List (String × JValue) :=
  match fields.find? (fun f => f.key = rk) with
  | some tf =>
      if tf.strategy = .increment then
        setKey vs rk (ncJ (tf.options.bind (fun o => o.start)) (.num (.fin 1)))
      else vs
  | none => vs

/-- The reset pass at a group boundary: fold the reset step over the listed
keys. -/
def applyResets (fields : List FieldConfig) (gc : GroupingConfig)
    (vars : List (String × JValue)) : List (String × JValue) :=
  (gc.resetFields.getD []).foldl (resetStep fields) vars

/-- The type-enforcement pass applied after a value is produced: only static
fields are coerced, undefined and null are left alone, a number type uses
Number unless it yields NaN, and a boolean type maps the literal strings
true and false then falls back to truthiness. -/
def typeCoerce (f : FieldConfig) (val : JValue) : JValue :=
  if f.strategy = .static then
    match val with
    | .undef => val
    | .null => val
    | v =>
        match f.type with
        | .number =>
            let n := jsToNumber v
            if n.isNaN then v else .num n
        | .boolean =>
            (match v with
             | .str "true" => .bool true
             | .str "false" => .bool false
             | w => .bool (jsTruthy w))
        | _ => v
  else val

/-- The loop body of generateLocalData for one field of row i: a grouping
field takes its value from the cyclic lookup and fires resets at a boundary,
any other field dispatches to its strategy generator; the result is coerced
and written into the flat row. -/
def stepField (env : Env) (count : Nat) (fields : List FieldConfig) (i : Nat)
    (acc : List (String × JValue) × GState) (f : FieldConfig) :
    List (String × JValue) × GState :=
  let opts := f.options.getD {}
  let row := acc.1
  let s := acc.2
  let out :=
    match opts.groupingConfig with
    | some gc =>
        let values := opts.values.getD []
        let sizeV := effSize count gc values
        let v := groupVal count i gc values
        let s1 := if atBoundary i sizeV then { s with vars := applyResets fields gc s.vars } else s
        (v, s1)
    | none => runGen env f.strategy f.key opts s
  (setKey row f.key (typeCoerce f out.1), out.2)

/-- One step of counter initialization: an increment field starts at its
configured start, defaulted to one by the nullish operator. -/
def initStep (vs : List (String × JValue)) (f : FieldConfig) : List (String × JValue) :=
  if f.strategy = .increment then
    setKey vs f.key (ncJ (f.options.bind (fun o => o.start)) (.num (.fin 1)))
  else vs

/-- Counter initialization over the whole field list. -/
def initVars (fields : List FieldConfig) : List (String × JValue) :=
  fields.foldl initStep []

/-- One full row: fold the field step over the configuration list. -/
def genRow (env : Env) (count : Nat) (fields : List FieldConfig) (i : Nat) (s : GState) :
    List (String × JValue) × GState :=
  fields.foldl (stepField env count fields i) ([], s)

/-- The row loop, indexed by rows remaining and current row index. -/
def genRowsN (env : Env) (count : Nat) (fields : List FieldConfig) :
    Nat → Nat → GState → List (List (String × JValue))
  | 0, _, _ => []
  | n + 1, i, s =>
      let p := genRow env count fields i s
      p.1 :: genRowsN env count fields n (i + 1) p.2

/-- The flat rows produced by a local generation run, before unflattening. -/
def generateFlatRows (env : Env) (count : Nat) (fields : List FieldConfig) :
    List (List (String × JValue)) :=
  genRowsN env count fields count 0 ⟨initVars fields, 0, 0⟩

/-- Embedding of generateLocalData: generate every flat row, then rebuild
each into a nested record; the option is none when the dot-path walk throws. -/
def generateLocalData (env : Env) (count : Nat) (fields : List FieldConfig) :
    Option (List JValue) :=
  (generateFlatRows env count fields).mapM unflattenRow

/-- The flat value a run stores for a given key at a given row. -/
def rowValue (env : Env) (count : Nat) (fields : List FieldConfig) (i : Nat) (key : String) :
    Option JValue :=
  ((generateFlatRows env count fields).get? i).map (fun row => lookupKey row key)

/-! ### Basic lemmas about the ordered-map operations -/

theorem lookupKey_setKey_self (l : List (String × JValue)) (k : String) (v : JValue) :
    lookupKey (setKey l k v) k = v := by
  induction l with
  | nil => simp [setKey, lookupKey]
  | cons p rest ih =>
      obtain ⟨a, b⟩ := p
      by_cases h : a = k <;> simp [setKey, lookupKey, h, ih]

theorem lookupKey_setKey_ne (l : List (String × JValue)) (k q : String) (v : JValue)
    (h : k ≠ q) : lookupKey (setKey l k v) q = lookupKey l q := by
  induction l with
  | nil => simp [setKey, lookupKey, h]
  | cons p rest ih =>
      obtain ⟨a, b⟩ := p
      by_cases h2 : a = k <;> simp [setKey, lookupKey, h2, h, ih]

/-! ### State-threading lemmas for the generation engine -/

/-- A field that neither carries key x nor lists x among its reset targets
leaves the counter of x untouched. -/
theorem runGen_vars_other (env : Env) (strat : GenerationStrategy) (key : String)
    (opts : FieldOptions) (s : GState) (x : String) (h : key ≠ x) :
    lookupKey (runGen env strat key opts s).2.vars x = lookupKey s.vars x := by
  cases strat <;>
    simp only [runGen, drawR] <;>
    (try split) <;>
    simp_all [lookupKey_setKey_ne _ _ _ _ h]

theorem lookupKey_resetStep_ne (fields : List FieldConfig) (vs : List (String × JValue))
    (rk x : String) (h : rk ≠ x) :
    lookupKey (resetStep fields vs rk) x = lookupKey vs x := by
  unfold resetStep
  split
  · split
    · exact lookupKey_setKey_ne _ _ _ _ h
    · rfl
  · rfl

theorem lookupKey_resetFold_not_mem (fields : List FieldConfig)
    (rks : List String) (vars : List (String × JValue)) (x : String)
    (hx : x ∉ rks) :
    lookupKey (rks.foldl (resetStep fields) vars) x = lookupKey vars x := by
  induction rks generalizing vars with
  | nil => rfl
  | cons rk rest ih =>
      simp only [List.mem_cons, not_or] at hx
      simp only [List.foldl_cons]
      rw [ih _ hx.2, lookupKey_resetStep_ne _ _ _ _ (Ne.symm hx.1)]

theorem applyResets_not_mem (fields : List FieldConfig) (gc : GroupingConfig)
    (vars : List (String × JValue)) (x : String)
    (hx : x ∉ gc.resetFields.getD []) :
    lookupKey (applyResets fields gc vars) x = lookupKey vars x :=
  lookupKey_resetFold_not_mem fields _ vars x hx

/-- When x is listed among the reset targets and resolves to an increment
field, the reset pass leaves the counter of x at that field configured
start. -/
theorem applyResets_mem (fields : List FieldConfig) (gc : GroupingConfig)
    (vars : List (String × JValue)) (x : String) (tf : FieldConfig)
    (hfind : fields.find? (fun f => f.key = x) = some tf)
    (hstrat : tf.strategy = .increment)
    (hx : x ∈ gc.resetFields.getD []) :
    lookupKey (applyResets fields gc vars) x =
      ncJ (tf.options.bind (fun o => o.start)) (.num (.fin 1)) := by
  unfold applyResets
  generalize gc.resetFields.getD [] = rks at hx
  induction rks generalizing vars with
  | nil => cases hx
  | cons rk rest ih =>
      simp only [List.foldl_cons]
      by_cases hmem : x ∈ rest
      · exact ih _ hmem
      · have hrk : rk = x := by
          rcases List.mem_cons.mp hx with h | h
          · exact h.symm
          · exact absurd h hmem
        rw [hrk, lookupKey_resetFold_not_mem fields rest _ x hmem]
        unfold resetStep
        rw [hfind]
        simp only [hstrat, if_pos rfl]
        exact lookupKey_setKey_self _ _ _

/-! ### Integer arithmetic facts about the JavaScript operators -/

theorem floor_natCast_div (i c : Nat) (hc : 0 < c) :
    Int.floor ((i : ℚ) / (c : ℚ)) = ((i / c : ℕ) : Int) := by
  have hcq : (0 : ℚ) < (c : ℚ) := by exact_mod_cast hc
  have hmod : c * (i / c) + i % c = i := Nat.div_add_mod i c
  have hmq : (c : ℚ) * ((i / c : ℕ) : ℚ) + ((i % c : ℕ) : ℚ) = (i : ℚ) := by
    exact_mod_cast congrArg (Nat.cast (R := ℚ)) hmod
  have hltq : ((i % c : ℕ) : ℚ) < (c : ℚ) := by exact_mod_cast Nat.mod_lt i hc
  have hge : (0 : ℚ) ≤ ((i % c : ℕ) : ℚ) := by positivity
  rw [Int.floor_eq_iff, Int.cast_natCast]
  constructor
  · rw [le_div_iff₀ hcq]
    nlinarith
  · rw [div_lt_iff₀ hcq]
    nlinarith

theorem ratTrunc_natCast_div (i c : Nat) (hc : 0 < c) :
    JsNum.ratTrunc ((i : ℚ) / (c : ℚ)) = ((i / c : ℕ) : Int) := by
  unfold JsNum.ratTrunc
  rw [if_pos (by positivity), floor_natCast_div i c hc]

/-- The JavaScript remainder of two nonnegative integers is the usual
natural-number remainder. -/
theorem modJ_natCast (i c : Nat) (hc : 0 < c) :
    JsNum.modJ (.fin (i : ℚ)) (.fin (c : ℚ)) = .fin (((i % c : ℕ) : ℚ)) := by
  simp only [JsNum.modJ]
  rw [if_neg (by exact_mod_cast hc.ne')]
  congr 1
  rw [ratTrunc_natCast_div i c hc, Int.cast_natCast]
  have hmod : c * (i / c) + i % c = i := Nat.div_add_mod i c
  have hmq : (c : ℚ) * ((i / c : ℕ) : ℚ) + ((i % c : ℕ) : ℚ) = (i : ℚ) := by
    exact_mod_cast congrArg (Nat.cast (R := ℚ)) hmod
  linarith

/-! ### Per-field state and row effects of the generation loop -/

/-- A field resets the counter of x when it carries a grouping configuration
listing x among its reset targets. -/
def resetsKey (g : FieldConfig) (x : String) : Prop :=
  ∃ o gc, g.options = some o ∧ o.groupingConfig = some gc ∧ x ∈ gc.resetFields.getD []

theorem stepField_row_other (env : Env) (count : Nat) (fields : List FieldConfig)
    (i : Nat) (acc : List (String × JValue) × GState) (g : FieldConfig) (x : String)
    (hkey : g.key ≠ x) :
    lookupKey (stepField env count fields i acc g).1 x = lookupKey acc.1 x := by
  unfold stepField
  exact lookupKey_setKey_ne _ _ _ _ hkey

theorem stepField_vars_other (env : Env) (count : Nat) (fields : List FieldConfig)
    (i : Nat) (acc : List (String × JValue) × GState) (g : FieldConfig) (x : String)
    (hkey : g.key ≠ x) (hres : ¬ resetsKey g x) :
    lookupKey (stepField env count fields i acc g).2.vars x = lookupKey acc.2.vars x := by
  unfold stepField
  cases hgc : (g.options.getD {}).groupingConfig with
  | none =>
      simp only [hgc]
      exact runGen_vars_other env _ _ _ _ x hkey
  | some gc =>
      simp only [hgc]
      split
      · rcases ho : g.options with _ | o
        · rw [ho] at hgc; cases hgc
        · rw [ho] at hgc
          simp only [Option.getD_some] at hgc
          refine applyResets_not_mem fields gc _ x (fun hx => hres ⟨o, gc, ho, hgc, hx⟩)
      · rfl

theorem foldl_step_row_other (env : Env) (count : Nat) (fields : List FieldConfig)
    (i : Nat) (fs : List FieldConfig) (x : String)
    (h : ∀ g ∈ fs, g.key ≠ x) :
    ∀ acc, lookupKey (fs.foldl (stepField env count fields i) acc).1 x =
      lookupKey acc.1 x := by
  induction fs with
  | nil => intro acc; rfl
  | cons g rest ih =>
      intro acc
      simp only [List.foldl_cons]
      rw [ih (fun g hg => h g (List.mem_cons_of_mem _ hg)) _,
        stepField_row_other env count fields i acc g x (h g (List.mem_cons_self _ _))]

theorem foldl_step_vars_other (env : Env) (count : Nat) (fields : List FieldConfig)
    (i : Nat) (fs : List FieldConfig) (x : String)
    (h : ∀ g ∈ fs, g.key ≠ x ∧ ¬ resetsKey g x) :
    ∀ acc, lookupKey (fs.foldl (stepField env count fields i) acc).2.vars x =
      lookupKey acc.2.vars x := by
  induction fs with
  | nil => intro acc; rfl
  | cons g rest ih =>
      intro acc
      simp only [List.foldl_cons]
      rw [ih (fun g hg => h g (List.mem_cons_of_mem _ hg)) _,
        stepField_vars_other env count fields i acc g x (h g (List.mem_cons_self _ _)).1
          (h g (List.mem_cons_self _ _)).2]

/-! ### Extracting one row of a run -/

/-- State after a number of full rows starting at a given row index. -/
def advRows (env : Env) (count : Nat) (fields : List FieldConfig) :
    Nat → Nat → GState → GState
  | 0, _, s => s
  | j + 1, i, s => advRows env count fields j (i + 1) (genRow env count fields i s).2

theorem genRowsN_get? (env : Env) (count : Nat) (fields : List FieldConfig) :
    ∀ (j n i : Nat) (s : GState), j < n →
      (genRowsN env count fields n i s).get? j =
        some (genRow env count fields (i + j) (advRows env count fields j i s)).1 := by
  intro j
  induction j with
  | zero =>
      intro n i s hj
      match n, hj with
      | n + 1, _ => simp [genRowsN, advRows]
  | succ j ih =>
      intro n i s hj
      match n, hj with
      | n + 1, hj =>
          have hjn : j < n := by omega
          have harith : i + (j + 1) = (i + 1) + j := by omega
          simp only [genRowsN, List.get?_cons_succ, advRows, harith]
          exact ih n (i + 1) _ hjn

/-- The flat value stored for key x at row i is read off the single row
computed from the state reached after i rows. -/
theorem rowValue_eq (env : Env) (count : Nat) (fields : List FieldConfig)
    (i : Nat) (x : String) (hi : i < count) :
    rowValue env count fields i x =
      some (lookupKey
        (genRow env count fields i
          (advRows env count fields i 0 ⟨initVars fields, 0, 0⟩)).1 x) := by
  unfold rowValue generateFlatRows
  rw [genRowsN_get? env count fields i count 0 _ hi]
  simp

/-! ### The counter of an increment field across the run -/

theorem lookupKey_initStep_ne (vs : List (String × JValue)) (f : FieldConfig) (x : String)
    (h : f.key ≠ x) : lookupKey (initStep vs f) x = lookupKey vs x := by
  unfold initStep
  split
  · exact lookupKey_setKey_ne _ _ _ _ h
  · rfl

theorem initFold_lookup_other (fs : List FieldConfig) (x : String)
    (h : ∀ g ∈ fs, g.key ≠ x) :
    ∀ vs, lookupKey (fs.foldl initStep vs) x = lookupKey vs x := by
  induction fs with
  | nil => intro vs; rfl
  | cons g rest ih =>
      intro vs
      simp only [List.foldl_cons]
      rw [ih (fun g hg => h g (List.mem_cons_of_mem _ hg)) _,
        lookupKey_initStep_ne _ _ _ (h g (List.mem_cons_self _ _))]

theorem initVars_lookup (pre post : List FieldConfig) (f : FieldConfig) (x : String)
    (hf : f.key = x) (hstrat : f.strategy = .increment)
    (hpost : ∀ g ∈ post, g.key ≠ x) :
    lookupKey (initVars (pre ++ f :: post)) x =
      ncJ (f.options.bind (fun o => o.start)) (.num (.fin 1)) := by
  unfold initVars
  rw [List.foldl_append, List.foldl_cons,
    initFold_lookup_other post x hpost]
  unfold initStep
  rw [if_pos hstrat, hf, lookupKey_setKey_self]

theorem stepField_increment_row (env : Env) (count : Nat) (fields : List FieldConfig)
    (i : Nat) (acc : List (String × JValue) × GState) (f : FieldConfig)
    (x : String) (o : FieldOptions) (cur : Rat)
    (hf : f.key = x) (hstrat : f.strategy = .increment) (ho : f.options = some o)
    (hgc : o.groupingConfig = none)
    (hcur : lookupKey acc.2.vars x = .num (.fin cur)) :
    lookupKey (stepField env count fields i acc f).1 x = .num (.fin cur) := by
  subst hf
  simp only [stepField, ho, Option.getD_some, hgc, hstrat, runGen, hcur]
  rw [lookupKey_setKey_self]
  simp [typeCoerce, hstrat]

theorem stepField_increment_vars (env : Env) (count : Nat) (fields : List FieldConfig)
    (i : Nat) (acc : List (String × JValue) × GState) (f : FieldConfig)
    (x : String) (o : FieldOptions) (cur k : Rat)
    (hf : f.key = x) (hstrat : f.strategy = .increment) (ho : f.options = some o)
    (hgc : o.groupingConfig = none) (hstep : o.step = some (.num (.fin k))) (hk : k ≠ 0)
    (hcur : lookupKey acc.2.vars x = .num (.fin cur)) :
    lookupKey (stepField env count fields i acc f).2.vars x = .num (.fin (cur + k)) := by
  subst hf
  simp only [stepField, ho, Option.getD_some, hgc, hstrat, runGen, hcur]
  rw [lookupKey_setKey_self]
  simp [hstep, orJ, jsTruthy, hk, jsToNumber, jsAdd, isStrLike, JsNum.add, hcur]

/-- Field-list shape used by the increment claims: the increment field f with
key x sits somewhere in the list and no other field touches the counter of
x. -/
structure IncContext (fields : List FieldConfig) (pre post : List FieldConfig)
    (f : FieldConfig) (x : String) (o : FieldOptions) : Prop where
  split_eq : fields = pre ++ f :: post
  key_eq : f.key = x
  strat : f.strategy = .increment
  opts : f.options = some o
  no_group : o.groupingConfig = none
  pre_other : ∀ g ∈ pre, g.key ≠ x ∧ ¬ resetsKey g x
  post_other : ∀ g ∈ post, g.key ≠ x ∧ ¬ resetsKey g x

theorem genRow_inc_row (env : Env) (count : Nat) (fields pre post : List FieldConfig)
    (f : FieldConfig) (x : String) (o : FieldOptions) (cur : Rat) (i : Nat) (σ : GState)
    (ctx : IncContext fields pre post f x o)
    (hcur : lookupKey σ.vars x = .num (.fin cur)) :
    lookupKey (genRow env count fields i σ).1 x = .num (.fin cur) := by
  obtain rfl := ctx.split_eq
  unfold genRow
  rw [List.foldl_append, List.foldl_cons]
  rw [foldl_step_row_other env count _ i post x (fun g hg => (ctx.post_other g hg).1)]
  exact stepField_increment_row env count _ i _ f x o cur ctx.key_eq ctx.strat ctx.opts
    ctx.no_group
    (by rw [foldl_step_vars_other env count _ i pre x ctx.pre_other]; exact hcur)

theorem genRow_inc_vars (env : Env) (count : Nat) (fields pre post : List FieldConfig)
    (f : FieldConfig) (x : String) (o : FieldOptions) (cur k : Rat) (i : Nat) (σ : GState)
    (ctx : IncContext fields pre post f x o)
    (hstep : o.step = some (.num (.fin k))) (hk : k ≠ 0)
    (hcur : lookupKey σ.vars x = .num (.fin cur)) :
    lookupKey (genRow env count fields i σ).2.vars x = .num (.fin (cur + k)) := by
  obtain rfl := ctx.split_eq
  unfold genRow
  rw [List.foldl_append, List.foldl_cons]
  rw [foldl_step_vars_other env count _ i post x ctx.post_other]
  exact stepField_increment_vars env count _ i _ f x o cur k ctx.key_eq ctx.strat
    ctx.opts ctx.no_group hstep hk
    (by rw [foldl_step_vars_other env count _ i pre x ctx.pre_other]; exact hcur)

theorem advRows_inc_vars (env : Env) (count : Nat) (fields pre post : List FieldConfig)
    (f : FieldConfig) (x : String) (o : FieldOptions) (k : Rat)
    (ctx : IncContext fields pre post f x o)
    (hstep : o.step = some (.num (.fin k))) (hk : k ≠ 0) :
    ∀ (j : Nat) (i0 : Nat) (σ : GState) (c0 : Rat),
      lookupKey σ.vars x = .num (.fin c0) →
      lookupKey (advRows env count fields j i0 σ).vars x = .num (.fin (c0 + j * k)) := by
  intro j
  induction j with
  | zero =>
      intro i0 σ c0 hc0
      simpa [advRows] using hc0
  | succ j ih =>
      intro i0 σ c0 hc0
      have hrow := genRow_inc_vars env count fields pre post f x o c0 k i0 σ ctx hstep hk hc0
      have := ih (i0 + 1) (genRow env count fields i0 σ).2 (c0 + k) hrow
      rw [show advRows env count fields (j + 1) i0 σ =
        advRows env count fields j (i0 + 1) (genRow env count fields i0 σ).2 from rfl, this]
      congr 2
      push_cast
      ring

/-! ### Claim C7 -/

/-- Claim C7, amended: a field with strategy increment, start s and step k,
carrying no grouping configuration of its own, in a run where no grouping
field lists it for reset, stores s + i * k at row i — provided k is nonzero
(the source defaults a falsy step to one, so a configured step of zero
behaves as step one). -/
theorem increment_row_value (env : Env) (count : Nat)
    (pre post : List FieldConfig) (f : FieldConfig) (x : String) (o : FieldOptions)
    (s k : Rat) (i : Nat)
    (ctx : IncContext (pre ++ f :: post) pre post f x o)
    (hstart : o.start = some (.num (.fin s)))
    (hstep : o.step = some (.num (.fin k))) (hk : k ≠ 0)
    (hi : i < count) :
    rowValue env count (pre ++ f :: post) i x = some (.num (.fin (s + i * k))) := by
  rw [rowValue_eq env count _ i x hi]
  have hinit : lookupKey (initVars (pre ++ f :: post)) x = .num (.fin s) := by
    rw [initVars_lookup pre post f x ctx.key_eq ctx.strat
      (fun g hg => (ctx.post_other g hg).1), ctx.opts]
    simp [ncJ, hstart]
  have hadv := advRows_inc_vars env count _ pre post f x o k ctx hstep hk i 0
    ⟨initVars (pre ++ f :: post), 0, 0⟩ s hinit
  rw [genRow_inc_row env count _ pre post f x o (s + i * k) i _ ctx hadv]

/-- Host environment used by the concrete witnesses: every random draw is
zero, every uuid is the letter u, the clock reads zero and the formatter
returns the epoch instant. -/
def envW : Env := ⟨fun _ => 0, fun _ => "u", 0, fun _ => "1970-01-01T00:00:00.000Z"⟩

/-- Counterexample field for claim C7 as frozen: an increment field with a
configured step of zero. -/
def fIncZeroW : FieldConfig :=
  { key := "n", type := .number, strategy := .increment,
    options := some { start := some (.num (.fin 5)), step := some (.num (.fin 0)) } }

/-- Counterexample for claim C7 as frozen: with start 5 and step 0, row 1
stores 6, because the generator defaults a falsy step to one, while the
claimed formula s + i * k gives 5. -/
theorem increment_step_zero_counterexample :
    rowValue envW 2 [fIncZeroW] 1 "n" = some (.num (.fin 6)) ∧
    (5 : ℚ) + 1 * 0 = 5 ∧ (6 : ℚ) ≠ 5 :=
  ⟨rfl, by norm_num, by norm_num⟩

/-- Witness field for claim C7: an increment field named n with start 5 and
step 2. -/
def fIncW : FieldConfig :=
  { key := "n", type := .number, strategy := .increment,
    options := some { start := some (.num (.fin 5)), step := some (.num (.fin 2)) } }

/-- Witness for claim C7: the field above generates 5 + 2 * 2 = 9 at row 2 of
a three-row run. -/
theorem increment_row_value_witness :
    rowValue envW 3 [fIncW] 2 "n" = some (.num (.fin 9)) := by
  have h := increment_row_value envW 3 [] [] fIncW "n"
    { start := some (.num (.fin 5)), step := some (.num (.fin 2)) } 5 2 2
    ⟨rfl, rfl, rfl, rfl, rfl, by simp, by simp⟩ rfl rfl (by norm_num) (by norm_num)
  simpa using h

/-! ### Claim C5 -/

theorem find?_key_append (l1 l2 : List FieldConfig) (x : String)
    (h : ∀ g ∈ l1, g.key ≠ x) :
    (l1 ++ l2).find? (fun f => f.key = x) = l2.find? (fun f => f.key = x) := by
  induction l1 with
  | nil => rfl
  | cons g rest ih =>
      have hg : decide (g.key = x) = false := by
        simpa using h g (List.mem_cons_self _ _)
      simp only [List.cons_append, List.find?_cons, hg]
      exact ih (fun g hg => h g (List.mem_cons_of_mem _ hg))

theorem find?_key_cons_self (f : FieldConfig) (post : List FieldConfig) (x : String)
    (hf : f.key = x) :
    (f :: post).find? (fun f => f.key = x) = some f := by
  simp [List.find?_cons, hf]

/-- At a group boundary, the grouping field replaces the run counters by the
reset pass over the current counters. -/
theorem stepField_group_reset (env : Env) (count : Nat) (fields : List FieldConfig)
    (i : Nat) (acc : List (String × JValue) × GState) (g : FieldConfig)
    (og : FieldOptions) (gc : GroupingConfig)
    (ho : g.options = some og) (hgc : og.groupingConfig = some gc)
    (hbound : atBoundary i (effSize count gc (og.values.getD [])) = true) :
    (stepField env count fields i acc g).2.vars = applyResets fields gc acc.2.vars := by
  simp only [stepField, ho, Option.getD_some, hgc, hbound, if_pos]

/-- Claim C5, amended: an increment field listed among the reset targets of a
grouping field returns to its configured start at every group boundary row —
provided the grouping field appears before the increment field in the
configuration list (the reset fires while the row is being generated, so a
field processed before the grouping field still shows its pre-reset value on
the boundary row itself). -/
theorem reset_to_start_at_boundary (env : Env) (count : Nat)
    (pre mid post : List FieldConfig) (g f : FieldConfig) (x : String)
    (og o : FieldOptions) (gc : GroupingConfig) (s : Rat) (c i : Nat)
    (hg_opts : g.options = some og) (hg_gc : og.groupingConfig = some gc)
    (hgx : x ∈ gc.resetFields.getD [])
    (hf_key : f.key = x) (hf_strat : f.strategy = .increment) (hf_opts : f.options = some o)
    (hf_gc : o.groupingConfig = none) (hstart : o.start = some (.num (.fin s)))
    (hgkey : g.key ≠ x) (hprekeys : ∀ h ∈ pre, h.key ≠ x)
    (hmid : ∀ h ∈ mid, h.key ≠ x ∧ ¬ resetsKey h x)
    (hpost : ∀ h ∈ post, h.key ≠ x)
    (hsize : effSize count gc (og.values.getD []) = .num (.fin ((c : ℕ) : ℚ)))
    (hc : 0 < c) (hb0 : 0 < i) (hbmod : i % c = 0) (hi : i < count) :
    rowValue env count (pre ++ g :: (mid ++ f :: post)) i x = some (.num (.fin s)) := by
  rw [rowValue_eq env count _ i x hi]
  congr 1
  set fields := pre ++ g :: (mid ++ f :: post) with hfields
  set σ := advRows env count fields i 0 ⟨initVars fields, 0, 0⟩
  have hbound : atBoundary i (effSize count gc (og.values.getD [])) = true := by
    rw [hsize]
    unfold atBoundary
    simp only [jsToNumber, decide_eq_true_eq]
    refine ⟨hb0, ?_⟩
    rw [modJ_natCast i c hc, hbmod]
    norm_num
  have hfind : fields.find? (fun h => h.key = x) = some f := by
    have hgd : decide (g.key = x) = false := by simpa using hgkey
    rw [hfields, find?_key_append pre _ x hprekeys]
    simp only [List.find?_cons, hgd]
    rw [find?_key_append mid _ x (fun h hh => (hmid h hh).1),
      find?_key_cons_self f post x hf_key]
  unfold genRow
  rw [hfields, List.foldl_append, List.foldl_cons, List.foldl_append, List.foldl_cons]
  rw [foldl_step_row_other env count fields i post x hpost]
  refine stepField_increment_row env count fields i _ f x o s hf_key hf_strat hf_opts hf_gc ?_
  rw [foldl_step_vars_other env count fields i mid x hmid]
  rw [stepField_group_reset env count fields i _ g og gc hg_opts hg_gc hbound]
  rw [applyResets_mem fields gc _ x f hfind hf_strat hgx, hf_opts]
  simp [ncJ, hstart]

/-- Witness grouping field for claim C5: groups of two over values A and B,
resetting the counter field c. -/
def fGrpW : FieldConfig :=
  { key := "team", type := .string, strategy := .enum,
    options := some { values := some [.str "A", .str "B"],
                      groupingConfig := some ⟨"fixed", some (.num (.fin 2)), some ["c"]⟩ } }

/-- Witness increment field for claim C5: counter c starting at 10. -/
def fIncTenW : FieldConfig :=
  { key := "c", type := .number, strategy := .increment,
    options := some { start := some (.num (.fin 10)), step := some (.num (.fin 1)) } }

/-- Witness for claim C5: with the grouping field first, the counter reads
its start 10 again on boundary row 2 of a four-row run. -/
theorem reset_to_start_at_boundary_witness :
    rowValue envW 4 [fGrpW, fIncTenW] 2 "c" = some (.num (.fin 10)) := by
  have h := reset_to_start_at_boundary envW 4 [] [] [] fGrpW fIncTenW "c"
    { values := some [.str "A", .str "B"],
      groupingConfig := some ⟨"fixed", some (.num (.fin 2)), some ["c"]⟩ }
    { start := some (.num (.fin 10)), step := some (.num (.fin 1)) }
    ⟨"fixed", some (.num (.fin 2)), some ["c"]⟩ 10 2 2
    rfl rfl (by simp) rfl rfl rfl rfl rfl (by simp [fGrpW]) (by simp) (by simp) (by simp)
    (by norm_num [effSize, orJ, jsTruthy]) (by norm_num) (by norm_num) (by norm_num)
    (by norm_num)
  simpa using h

/-- Counterexample for claim C5 as frozen: with the increment field placed
before the grouping field, boundary row 2 still shows the continuing value
12, not the start 10, so the reset does not hold regardless of field order. -/
theorem reset_order_counterexample :
    rowValue envW 4 [fIncTenW, fGrpW] 2 "c" = some (.num (.fin 12)) ∧
    JValue.num (.fin 12) ≠ JValue.num (.fin 10) := by
  constructor
  · rfl
  · intro h
    injection h with h
    injection h with h
    norm_num at h

/-! ### Row values that do not depend on the run state: grouping lookups and
static fields -/

theorem genRow_group_row (env : Env) (count : Nat) (pre post : List FieldConfig)
    (f : FieldConfig) (x : String) (o : FieldOptions) (gc : GroupingConfig)
    (i : Nat) (σ : GState)
    (hf : f.key = x) (ho : f.options = some o) (hgc : o.groupingConfig = some gc)
    (hpost : ∀ g ∈ post, g.key ≠ x) :
    lookupKey (genRow env count (pre ++ f :: post) i σ).1 x =
      typeCoerce f (groupVal count i gc (o.values.getD [])) := by
  unfold genRow
  rw [List.foldl_append, List.foldl_cons,
    foldl_step_row_other env count _ i post x hpost]
  simp only [stepField, ho, Option.getD_some, hgc, hf]
  rw [lookupKey_setKey_self]

theorem genRow_static_row (env : Env) (count : Nat) (pre post : List FieldConfig)
    (f : FieldConfig) (x : String) (o : FieldOptions) (i : Nat) (σ : GState)
    (hf : f.key = x) (hstrat : f.strategy = .static) (ho : f.options = some o)
    (hgc : o.groupingConfig = none)
    (hpost : ∀ g ∈ post, g.key ≠ x) :
    lookupKey (genRow env count (pre ++ f :: post) i σ).1 x =
      typeCoerce f (o.staticValue.getD .undef) := by
  unfold genRow
  rw [List.foldl_append, List.foldl_cons,
    foldl_step_row_other env count _ i post x hpost]
  simp only [stepField, ho, Option.getD_some, hgc, hstrat, runGen, hf]
  rw [lookupKey_setKey_self]

theorem rowValue_group (env : Env) (count : Nat) (pre post : List FieldConfig)
    (f : FieldConfig) (x : String) (o : FieldOptions) (gc : GroupingConfig) (i : Nat)
    (hf : f.key = x) (ho : f.options = some o) (hgc : o.groupingConfig = some gc)
    (hpost : ∀ g ∈ post, g.key ≠ x) (hi : i < count) :
    rowValue env count (pre ++ f :: post) i x =
      some (typeCoerce f (groupVal count i gc (o.values.getD []))) := by
  rw [rowValue_eq env count _ i x hi,
    genRow_group_row env count pre post f x o gc i _ hf ho hgc hpost]

/-- An index into the empty list reads as undefined whatever the index. -/
theorem jsnIndexList_nil (n : JsNum) : jsnIndexList [] n = .undef := by
  cases n <;> simp [jsnIndexList]

/-- An in-range natural index selects the list element. -/
theorem jsnIndexList_natCast (vs : List JValue) (k : Nat) (hk : k < vs.length) :
    jsnIndexList vs (.fin ((k : ℕ) : ℚ)) = (vs.get? k).getD .undef := by
  have hd : ((k : ℕ) : ℚ).den = 1 := by simp
  have h0 : (0 : ℤ) ≤ ((k : ℕ) : ℚ).num := by simp [Rat.num_natCast]
  have h1 : ((k : ℕ) : ℚ).num < vs.length := by
    simp only [Rat.num_natCast]
    exact_mod_cast hk
  simp only [jsnIndexList]
  rw [if_pos ⟨hd, h0, h1⟩]
  simp [Rat.num_natCast]

/-- Evaluation of the cyclic lookup for a fixed-strategy grouping with a
positive integral block size and a nonempty value list. -/
theorem groupVal_fixed (count i c : Nat) (gc : GroupingConfig) (vs : List JValue)
    (hstrat : gc.strategy = "fixed")
    (hcpg : gc.countPerGroup = some (.num (.fin ((c : ℕ) : ℚ)))) (hc : 0 < c)
    (hvs : vs ≠ []) :
    groupVal count i gc vs = (vs.get? ((i / c) % vs.length)).getD .undef := by
  have hlen : 0 < vs.length := List.length_pos.mpr hvs
  have hcq : ((c : ℕ) : ℚ) ≠ 0 := by exact_mod_cast hc.ne'
  unfold groupVal groupIdx effSize
  rw [hstrat]
  simp only [show ¬ ("fixed" = "even") from by decide, if_false, hcpg, orJ, jsTruthy]
  rw [if_pos (by simpa using hcq), if_neg (by simpa using hlen.ne')]
  simp only [jsToNumber, JsNum.div]
  rw [if_neg hcq]
  simp only [JsNum.floorJ]
  rw [floor_natCast_div i c hc, Int.cast_natCast, modJ_natCast _ _ hlen]
  exact jsnIndexList_natCast vs _ (Nat.mod_lt _ hlen)

/-! ### Claim C6 -/

/-- Claim C6, amended: a grouping field with fixed strategy, block size c and
value list vs stores the cyclic lookup at floor of i over c modulo the list
length at every row i — provided the field strategy is not static (a static
grouping field additionally coerces the looked-up value to the declared
type). -/
theorem grouping_fixed_row_value (env : Env) (count : Nat)
    (pre post : List FieldConfig) (f : FieldConfig) (x : String) (o : FieldOptions)
    (gc : GroupingConfig) (vs : List JValue) (c i : Nat)
    (hf : f.key = x) (ho : f.options = some o) (hgc : o.groupingConfig = some gc)
    (hstrat_fixed : gc.strategy = "fixed")
    (hcpg : gc.countPerGroup = some (.num (.fin ((c : ℕ) : ℚ)))) (hc : 0 < c)
    (hvals : o.values = some vs) (hvs : vs ≠ [])
    (hnostatic : f.strategy ≠ .static)
    (hpost : ∀ g ∈ post, g.key ≠ x) (hi : i < count) :
    rowValue env count (pre ++ f :: post) i x = vs.get? ((i / c) % vs.length) := by
  rw [rowValue_group env count pre post f x o gc i hf ho hgc hpost hi, hvals]
  simp only [Option.getD_some]
  rw [groupVal_fixed count i c gc vs hstrat_fixed hcpg hc hvs]
  have hmlt : (i / c) % vs.length < vs.length :=
    Nat.mod_lt _ (List.length_pos.mpr hvs)
  rw [List.get?_eq_get hmlt]
  simp [typeCoerce, hnostatic]

/-- Witness grouping field for claim C6: fixed groups of two over A and B. -/
def fGrpPlainW : FieldConfig :=
  { key := "team", type := .string, strategy := .enum,
    options := some { values := some [.str "A", .str "B"],
                      groupingConfig := some ⟨"fixed", some (.num (.fin 2)), some []⟩ } }

/-- Witness for claim C6: row 2 of a four-row run reads value B. -/
theorem grouping_fixed_row_value_witness :
    rowValue envW 4 [fGrpPlainW] 2 "team" = some (.str "B") := by
  have h := grouping_fixed_row_value envW 4 [] [] fGrpPlainW "team"
    { values := some [.str "A", .str "B"],
      groupingConfig := some ⟨"fixed", some (.num (.fin 2)), some []⟩ }
    ⟨"fixed", some (.num (.fin 2)), some []⟩ [.str "A", .str "B"] 2 2
    rfl rfl rfl rfl rfl (by norm_num) rfl (by simp) (by decide) (by simp) (by norm_num)
  simpa using h

/-- Counterexample for claim C6 as frozen: a static-strategy grouping field
of number type with value list containing the string 5 stores the coerced
number 5, not the list element itself. -/
def fGrpStatFiveW : FieldConfig :=
  { key := "g", type := .number, strategy := .static,
    options := some { values := some [.str "5"],
                      groupingConfig := some ⟨"fixed", some (.num (.fin 1)), none⟩ } }

theorem grouping_static_coercion_counterexample :
    rowValue envW 1 [fGrpStatFiveW] 0 "g" = some (.num (.fin 5)) ∧
    JValue.num (.fin 5) ≠ JValue.str "5" :=
  ⟨rfl, fun h => JValue.noConfusion h⟩

/-! ### Claim C8 -/

/-- Claim C8: a static field without grouping configuration coerces its
configured value to the declared type: numeric text becomes the number,
the literal string true becomes the boolean, and numeric text that does not
parse is stored unchanged. -/
theorem static_coercion (env : Env) (count : Nat) (pre post : List FieldConfig)
    (f : FieldConfig) (x : String) (o : FieldOptions) (i : Nat)
    (hf : f.key = x) (hstrat : f.strategy = .static) (ho : f.options = some o)
    (hgc : o.groupingConfig = none)
    (hpost : ∀ g ∈ post, g.key ≠ x) (hi : i < count) :
    (f.type = .number → o.staticValue = some (.str "42") →
      rowValue env count (pre ++ f :: post) i x = some (.num (.fin 42))) ∧
    (f.type = .boolean → o.staticValue = some (.str "true") →
      rowValue env count (pre ++ f :: post) i x = some (.bool true)) ∧
    (∀ t : String, f.type = .number → o.staticValue = some (.str t) →
      jsStrToNumber t = .nan →
      rowValue env count (pre ++ f :: post) i x = some (.str t)) := by
  have hbase : rowValue env count (pre ++ f :: post) i x =
      some (typeCoerce f (o.staticValue.getD .undef)) := by
    rw [rowValue_eq env count _ i x hi,
      genRow_static_row env count pre post f x o i _ hf hstrat ho hgc hpost]
  refine ⟨?_, ?_, ?_⟩
  · intro hty hsv
    have h42 : jsStrToNumber "42" = .fin 42 := by decide
    rw [hbase, hsv]
    simp [typeCoerce, hstrat, hty, jsToNumber, h42, JsNum.isNaN]
  · intro hty hsv
    rw [hbase, hsv]
    simp [typeCoerce, hstrat, hty]
  · intro t hty hsv hnan
    rw [hbase, hsv]
    simp [typeCoerce, hstrat, hty, jsToNumber, hnan, JsNum.isNaN]

/-- Witness static field of number type with value text 42. -/
def fStatNumW : FieldConfig :=
  { key := "v", type := .number, strategy := .static,
    options := some { staticValue := some (.str "42") } }

/-- Witness static field of boolean type with value text true. -/
def fStatBoolW : FieldConfig :=
  { key := "v", type := .boolean, strategy := .static,
    options := some { staticValue := some (.str "true") } }

/-- Witness static field of number type with non-numeric value text. -/
def fStatBadW : FieldConfig :=
  { key := "v", type := .number, strategy := .static,
    options := some { staticValue := some (.str "abc") } }

/-- Witness for claim C8: the three coercion scenarios at concrete runs. -/
theorem static_coercion_witness :
    rowValue envW 1 [fStatNumW] 0 "v" = some (.num (.fin 42)) ∧
    rowValue envW 1 [fStatBoolW] 0 "v" = some (.bool true) ∧
    rowValue envW 1 [fStatBadW] 0 "v" = some (.str "abc") := by
  refine ⟨?_, ?_, ?_⟩
  · exact (static_coercion envW 1 [] [] fStatNumW "v"
      { staticValue := some (.str "42") } 0 rfl rfl rfl rfl (by simp) (by norm_num)).1
      rfl rfl
  · exact (static_coercion envW 1 [] [] fStatBoolW "v"
      { staticValue := some (.str "true") } 0 rfl rfl rfl rfl (by simp) (by norm_num)).2.1
      rfl rfl
  · exact (static_coercion envW 1 [] [] fStatBadW "v"
      { staticValue := some (.str "abc") } 0 rfl rfl rfl rfl (by simp) (by norm_num)).2.2
      "abc" rfl rfl (by decide)

/-! ### Claim C10 -/

/-- Coercion leaves the undefined value alone for every field. -/
theorem typeCoerce_undef (f : FieldConfig) : typeCoerce f .undef = .undef := by
  unfold typeCoerce
  split <;> rfl

/-- Claim C10, amended: a grouping field never consults the generator of its
declared strategy: its stored value is the cyclic lookup (additionally
subjected, for a static-strategy field, to declared-type coercion of a
defined looked-up value); with an empty value list the stored value is
undefined at every row, whatever the strategy. -/
theorem grouping_bypasses_generator (env : Env) (count : Nat)
    (pre post : List FieldConfig) (f : FieldConfig) (x : String) (o : FieldOptions)
    (gc : GroupingConfig) (i : Nat)
    (hf : f.key = x) (ho : f.options = some o) (hgc : o.groupingConfig = some gc)
    (hpost : ∀ g ∈ post, g.key ≠ x) (hi : i < count) :
    rowValue env count (pre ++ f :: post) i x =
      some (typeCoerce f (groupVal count i gc (o.values.getD []))) ∧
    (o.values.getD [] = [] →
      rowValue env count (pre ++ f :: post) i x = some .undef) := by
  have hbase := rowValue_group env count pre post f x o gc i hf ho hgc hpost hi
  refine ⟨hbase, fun hnil => ?_⟩
  rw [hbase, hnil]
  simp [groupVal, jsnIndexList_nil, typeCoerce_undef]

/-- Witness grouping field with an empty value list and static strategy. -/
def fGrpEmptyW : FieldConfig :=
  { key := "g", type := .number, strategy := .static,
    options := some { values := some [],
                      groupingConfig := some ⟨"fixed", some (.num (.fin 1)), none⟩ } }

/-- Witness for claim C10: the empty-values grouping field stores undefined
at row 1 of a two-row run, despite its static strategy. -/
theorem grouping_bypasses_generator_witness :
    rowValue envW 2 [fGrpEmptyW] 1 "g" = some .undef := by
  exact (grouping_bypasses_generator envW 2 [] [] fGrpEmptyW "g"
    { values := some [],
      groupingConfig := some ⟨"fixed", some (.num (.fin 1)), none⟩ }
    ⟨"fixed", some (.num (.fin 1)), none⟩ 1
    rfl rfl rfl (by simp) (by norm_num)).2 rfl

/-- Witness grouping field with static strategy and a numeric string value. -/
def fGrpStatSevenW : FieldConfig :=
  { key := "g", type := .number, strategy := .static,
    options := some { values := some [.str "7"],
                      groupingConfig := some ⟨"fixed", some (.num (.fin 1)), none⟩ } }

/-- Counterexample for claim C10 as frozen: the stored value of a
static-strategy grouping field is the coerced number 7, not the looked-up
list element, so the row value is not taken solely from the cyclic lookup. -/
theorem grouping_bypass_coercion_counterexample :
    rowValue envW 1 [fGrpStatSevenW] 0 "g" = some (.num (.fin 7)) ∧
    JValue.num (.fin 7) ≠ JValue.str "7" :=
  ⟨rfl, fun h => JValue.noConfusion h⟩

/-! ### Claim C2 -/

/-- Claim C2: the structural classifier returns true exactly when the key,
the type, the strategy, or the presence of a grouping configuration differs;
every other edit, touching only option contents, returns false. -/
theorem isStructuralChange_iff (f1 f2 : FieldConfig) :
    isStructuralChange f1 f2 = true ↔
      (f1.key ≠ f2.key ∨ f1.type ≠ f2.type ∨ f1.strategy ≠ f2.strategy ∨
       hasGroupCfg f1 ≠ hasGroupCfg f2) := by
  unfold isStructuralChange
  split_ifs with h1 h2 h3 h4 h5 <;> simp_all

/-! ### Claim C9 -/

/-- Claim C9: the executor fails exactly when the program throws or returns a
non-array; a thrown message is wrapped behind a fixed text and never
propagated raw; an array result is returned to the caller unchanged. -/
theorem executeGeneratedCode_contract (run : Nat → List FieldConfig → Except String JValue)
    (count : Nat) (fields : List FieldConfig) :
    ((∃ e, executeGeneratedCode run count fields = .error e) ↔
      ((∃ m, run count fields = .error m) ∨ (∀ xs, run count fields ≠ .ok (.arr xs)))) ∧
    (∀ xs, run count fields = .ok (.arr xs) → executeGeneratedCode run count fields = .ok xs) ∧
    (∀ m, run count fields = .error m →
      executeGeneratedCode run count fields =
        .error ("Failed to execute generation logic: " ++ m) ∧
      ∀ e, executeGeneratedCode run count fields = .error e → e ≠ m) ∧
    (∀ v, run count fields = .ok v → (∀ xs, v ≠ .arr xs) →
      executeGeneratedCode run count fields =
        .error ("Failed to execute generation logic: " ++
          "Generated code did not return an Array.")) := by
  have hlen : ∀ m : String, ("Failed to execute generation logic: " ++ m) ≠ m := by
    intro m h
    have h2 := congrArg String.length h
    rw [String.length_append] at h2
    have h36 : ("Failed to execute generation logic: ").length = 36 := rfl
    omega
  rcases hrun : run count fields with m | v
  · refine ⟨by simp [executeGeneratedCode, hrun], by simp [hrun], ?_, by simp [hrun]⟩
    intro m1 hm1
    injection hm1 with hm1
    subst hm1
    refine ⟨by simp [executeGeneratedCode, hrun], ?_⟩
    intro e he
    simp only [executeGeneratedCode, hrun] at he
    injection he with he
    subst he
    exact hlen m
  · cases v <;>
      refine ⟨by simp [executeGeneratedCode, hrun], by simp [executeGeneratedCode, hrun],
        by simp [hrun], ?_⟩ <;>
      simp [executeGeneratedCode, hrun]

/-- Witness for claim C9: a program that throws the message boom results in
the wrapped failure. -/
theorem executeGeneratedCode_contract_witness :
    executeGeneratedCode (fun _ _ => .error "boom") 1 [] =
      .error ("Failed to execute generation logic: " ++ "boom") :=
  ((executeGeneratedCode_contract (fun _ _ => .error "boom") 1 []).2.2.1 "boom" rfl).1

/-! ### Claims C3 and C4 -/

theorem lcChar_ne_I (c : Char) : lcChar c ≠ 'I' := by
  unfold lcChar
  split <;> simp_all

/-- After lower-casing, no string can end with the capital-I suffix Id, so
the third disjunct of the id test in determineStrategy can never fire. -/
theorem lc_not_endsWith_Id (s : String) : endsW (lcStr s) "Id" = false := by
  unfold endsW lcStr
  by_contra h
  simp only [Bool.not_eq_false] at h
  rw [List.isSuffixOf_iff_suffix] at h
  obtain ⟨pre, hpre⟩ := h
  have : 'I' ∈ (⟨(s.data.map lcChar)⟩ : String).data := by
    rw [← hpre]; simp
  simp only [String.data] at this
  rw [List.mem_map] at this
  obtain ⟨c, _, hc⟩ := this
  exact lcChar_ne_I c hc

/-- Host date parser used by the concrete inference theorems; it is never
consulted on a numeric sample value. -/
def dparse0 : String → JsNum := fun _ => .nan

/-- Claim C3, failing input: the key userId with integer value 5 is assigned
random_int with bounds zero to ten, not increment, because the code
lower-cases the key before testing the camel-case Id suffix, leaving that
test unsatisfiable. -/
theorem determineStrategy_camelId_bug :
    determineStrategy dparse0 "userId" (.num (.fin 5)) =
      ⟨.random_int, some { min := some (.num (.fin 0)), max := some (.num (.fin 10)) },
        none⟩ ∧
    (determineStrategy dparse0 "userId" (.num (.fin 5))).strategy ≠ .increment := by
  refine ⟨rfl, ?_⟩
  intro h
  rw [show (determineStrategy dparse0 "userId" (.num (.fin 5))).strategy = .random_int
    from rfl] at h
  cases h

/-- Counterexample for claim C4 as frozen: at the non-id key count with
integer value 10 the code sets the upper bound to 20, while the greater of
twice the value and 100 would be 100. -/
theorem random_int_bound_counterexample :
    (determineStrategy dparse0 "count" (.num (.fin 10))).options =
      some { min := some (.num (.fin 0)), max := some (.num (.fin 20)) } ∧
    max ((10 : ℚ) * 2) 100 = 100 ∧ (20 : ℚ) ≠ 100 :=
  ⟨rfl, by norm_num, by norm_num⟩

/-- Claim C4, amended: an integer value whose lower-cased key is neither id
nor an underscore-id suffix is assigned random_int with lower bound zero and
upper bound twice the value, except that a zero value falls back to 100 (the
source uses logical-or defaulting, not a maximum; and because of the
lower-casing slip of claim C3, camel-case Id keys land here as well). -/
theorem determineStrategy_nonId_int (dateParse : String → JsNum) (key : String) (q : Rat)
    (hid : ¬ (lcStr key = "id" ∨ endsW (lcStr key) "_id" = true))
    (hint : q.den = 1) :
    determineStrategy dateParse key (.num (.fin q)) =
      ⟨.random_int,
       some { min := some (.num (.fin 0)),
              max := some (.num (.fin (if q * 2 = 0 then 100 else q * 2))) }, none⟩ := by
  unfold determineStrategy
  dsimp only
  have hId := lc_not_endsWith_Id key
  push_neg at hid
  rw [if_neg, if_pos]
  · by_cases hz : q * 2 = 0 <;> simp [orJ, jsTruthy, JsNum.mul, hz]
  · simp [jsIsInteger, hint]
  · rintro ⟨hd, -⟩
    rcases hd with h | h | h
    · exact hid.1 h
    · simp_all
    · simp_all

/-- Witness for the amended claim C4 at key count and value 10. -/
theorem determineStrategy_nonId_int_witness :
    determineStrategy dparse0 "count" (.num (.fin 10)) =
      ⟨.random_int,
       some { min := some (.num (.fin 0)), max := some (.num (.fin 20)) }, none⟩ := by
  have h := determineStrategy_nonId_int dparse0 "count" 10 (by decide) (by decide)
  simpa using h

/-! ### Claim C1: the flatten and unflatten round trip

The development works at the level of segment lists: a segment-level mirror
of flattenObject is related to the string-keyed original through the join
and split functions, and the unflatten walk is shown to rebuild every
well-formed value from its emitted entries. -/

/-- Reduction of the split loop past a character other than the dot. -/
theorem splitDotsAux_cons_ne (c : Char) (rest cur : List Char) (hc : c ≠ '.') :
    splitDotsAux (c :: rest) cur = splitDotsAux rest (c :: cur) := by
  rw [splitDotsAux.eq_def]
  split
  · simp_all
  · rename_i heq
    injection heq with h1 h2
    exact absurd h1 hc
  · rename_i c2 rest2 hne heq
    injection heq with h1 h2
    subst h1
    subst h2
    rfl

/-- Splitting a dot-free character list yields the single segment formed by
the pending reversed prefix and the list. -/
theorem splitDotsAux_no_dot (cs : List Char) : ∀ cur : List Char, '.' ∉ cs →
    splitDotsAux cs cur = [⟨cur.reverse ++ cs⟩] := by
  induction cs with
  | nil => intro cur _; simp [splitDotsAux]
  | cons c rest ih =>
      intro cur h
      have hc : c ≠ '.' := fun hh => h (hh ▸ List.mem_cons_self _ _)
      have hr : '.' ∉ rest := fun hh => h (List.mem_cons_of_mem _ hh)
      rw [splitDotsAux_cons_ne c rest cur hc, ih (c :: cur) hr]
      simp

/-- Splitting distributes over a dot that separates two character lists. -/
theorem splitDotsAux_append_dot (xs : List Char) : ∀ (ys cur : List Char),
    splitDotsAux (xs ++ '.' :: ys) cur = splitDotsAux xs cur ++ splitDotsAux ys [] := by
  induction xs with
  | nil => intro ys cur; simp [splitDotsAux]
  | cons c rest ih =>
      intro ys cur
      by_cases hc : c = '.'
      · subst hc
        show splitDotsAux ('.' :: (rest ++ '.' :: ys)) cur = _
        rw [show splitDotsAux ('.' :: (rest ++ '.' :: ys)) cur =
              ⟨cur.reverse⟩ :: splitDotsAux (rest ++ '.' :: ys) [] from rfl,
            ih ys []]
        rfl
      · show splitDotsAux (c :: (rest ++ '.' :: ys)) cur = _
        rw [splitDotsAux_cons_ne c (rest ++ '.' :: ys) cur hc, ih ys (c :: cur),
          splitDotsAux_cons_ne c rest cur hc]

/-- Splitting a dot-free string gives the one-segment list. -/
theorem splitDots_no_dot (s : String) (h : '.' ∉ s.data) : splitDots s = [s] := by
  rw [splitDots, splitDotsAux_no_dot s.data [] h]
  rfl

/-- The join of a list with at least two segments unfolds to a dotted
append. -/
theorem joinDots_cons (s : String) (rest : List String) (h : rest ≠ []) :
    joinDots (s :: rest) = s ++ "." ++ joinDots rest := by
  cases rest with
  | nil => exact absurd rfl h
  | cons t r => rfl

/-- Splitting inverts joining on nonempty lists of dot-free segments. -/
theorem splitDots_joinDots (l : List String) (hne : l ≠ [])
    (hd : ∀ s ∈ l, '.' ∉ s.data) : splitDots (joinDots l) = l := by
  induction l with
  | nil => exact absurd rfl hne
  | cons s rest ih =>
      cases rest with
      | nil => exact splitDots_no_dot s (hd s (List.mem_cons_self _ _))
      | cons t r =>
          rw [joinDots_cons s (t :: r) (by simp), splitDots]
          have hdata : (s ++ "." ++ joinDots (t :: r)).data
              = s.data ++ '.' :: (joinDots (t :: r)).data := by
            simp [String.data_append]
          rw [hdata, splitDotsAux_append_dot]
          rw [splitDotsAux_no_dot s.data [] (hd s (List.mem_cons_self _ _))]
          have : splitDotsAux (joinDots (t :: r)).data [] = splitDots (joinDots (t :: r)) := rfl
          rw [this, ih (by simp) (fun q hq => hd q (List.mem_cons_of_mem _ hq))]
          rfl

/-- Joining is injective on nonempty lists of dot-free segments, stated as
preservation of disequality. -/
theorem joinDots_ne (a b : List String) (ha : a ≠ []) (hb : b ≠ [])
    (hda : ∀ s ∈ a, '.' ∉ s.data) (hdb : ∀ s ∈ b, '.' ∉ s.data)
    (hne : a ≠ b) : joinDots a ≠ joinDots b := by
  intro h
  apply hne
  calc a = splitDots (joinDots a) := (splitDots_joinDots a ha hda).symm
    _ = splitDots (joinDots b) := by rw [h]
    _ = b := splitDots_joinDots b hb hdb

/-- The join of a list headed by a nonempty segment is nonempty. -/
theorem joinDots_ne_empty (s : String) (r : List String) (hs : s ≠ "") :
    joinDots (s :: r) ≠ "" := by
  cases r with
  | nil => exact hs
  | cons t r2 =>
      rw [joinDots_cons s (t :: r2) (by simp)]
      intro h
      have : (s ++ "." ++ joinDots (t :: r2)).data = ("" : String).data := by rw [h]
      simp [String.data_append] at this

/-- Appending one segment to a nonempty path joins as a dotted suffix. -/
theorem joinDots_append_single (a : List String) (k : String) (ha : a ≠ []) :
    joinDots (a ++ [k]) = joinDots a ++ "." ++ k := by
  induction a with
  | nil => exact absurd rfl ha
  | cons s r ih =>
      cases r with
      | nil => rfl
      | cons t r2 =>
          rw [List.cons_append, joinDots_cons s ((t :: r2) ++ [k]) (by simp),
            joinDots_cons s (t :: r2) (by simp), ih (by simp)]
          simp [String.append_assoc]

/-- The key construction of the flatten loop is the join of the extended
path, provided the path has no empty segments. -/
theorem joinKey_eq (ps : List String) (k : String) (h : ∀ s ∈ ps, s ≠ "") :
    (if joinDots ps = "" then k else joinDots ps ++ "." ++ k) = joinDots (ps ++ [k]) := by
  cases ps with
  | nil => simp [joinDots]
  | cons s r =>
      rw [if_neg (joinDots_ne_empty s r (h s (List.mem_cons_self _ _))),
        joinDots_append_single (s :: r) k (by simp)]

/-! ### Segment-level mirror of flattenObject: the same traversal emitting
segment lists instead of joined string keys. -/

mutual

/-- Segment-path mirror of flatFieldsA. -/
def segFieldsP : List (String × JValue) → List String → List (List String × JValue)
  | [], _ => []
  | (k, v) :: rest, ps => segPlaceP v (ps ++ [k]) ++ segFieldsP rest ps

/-- Segment-path mirror of flatIdxA. -/
def segIdxP : List JValue → Nat → List String → List (List String × JValue)
  | [], _, _ => []
  | v :: rest, i, ps => segPlaceP v (ps ++ [toString i]) ++ segIdxP rest (i + 1) ps

/-- Segment-path mirror of flatPlace. -/
def segPlaceP : JValue → List String → List (List String × JValue)
  | .obj fs, ps => segFieldsP fs ps
  | .arr [], _ => []
  | .arr (x :: _), ps =>
      (match x with
       | .obj fs => segFieldsP fs (ps ++ ["0"])
       | .arr ys => segIdxP ys 0 (ps ++ ["0"])
       | w => [(ps ++ ["0"], w)])
  | w, ps => [(ps, w)]

end

/-- Joining the segment path of one emitted entry. -/
def jnE (e : List String × JValue) : String × JValue := (joinDots e.1, e.2)

/-- A key that survives the path codec: nonempty, free of dots, and not
numeric (a numeric segment would be rebuilt as an array index). -/
def goodKey (k : String) : Bool :=
  decide (k ≠ "") && decide ('.' ∉ k.data) && !(jsNumericStr k)

mutual

/-- Values that the flatten and unflatten pair reproduces exactly: scalars
other than undefined, nonempty objects of well-formed fields, and
single-element arrays of such values. -/
def goodVal : JValue → Bool
  | .str _ => true
  | .num _ => true
  | .bool _ => true
  | .null => true
  | .undef => false
  | .obj [] => false
  | .obj fs => goodFields fs
  | .arr [x] => goodVal x
  | .arr _ => false

/-- Field lists with well-formed distinct keys and good values. -/
def goodFields : List (String × JValue) → Bool
  | [] => true
  | (k, v) :: rest =>
      goodKey k && goodVal v && rest.all (fun e => e.1 ≠ k) && goodFields rest

end

/-- Well-formedness of a whole record for the round-trip theorem; the top
level may be the empty object, since the rebuild starts from one. -/
def goodObj : JValue → Bool
  | .obj fs => goodFields fs
  | _ => false

/-- Path segments acceptable to the codec. -/
def SegsOk (ps : List String) : Prop := ∀ s ∈ ps, s ≠ "" ∧ '.' ∉ s.data

/-- Admissible index-loop arguments reached from good values: an empty tail
or a single good element at index zero. -/
def GIdx (xs : List JValue) (i : Nat) : Prop :=
  xs = [] ∨ (i = 0 ∧ ∃ y, xs = [y] ∧ goodVal y = true)

/-- Freshness of a batch of emitted entries against an accumulated map: no
joined path collides with an existing key. -/
def FreshIn (L : List (List String × JValue)) (acc : List (String × JValue)) : Prop :=
  ∀ e ∈ L, ∀ p ∈ acc, joinDots e.1 ≠ p.1

/-! Size bookkeeping for the strong inductions that follow the mutual
recursion of the flatten traversal. -/

theorem sz_val_cons (k : String) (v : JValue) (rest : List (String × JValue)) :
    sizeOf v < sizeOf ((k, v) :: rest) := by
  simp only [List.cons.sizeOf_spec, Prod.mk.sizeOf_spec]
  omega

theorem sz_rest_cons (k : String) (v : JValue) (rest : List (String × JValue)) :
    sizeOf rest < sizeOf ((k, v) :: rest) := by
  simp only [List.cons.sizeOf_spec, Prod.mk.sizeOf_spec]
  omega

theorem sz_fields_obj (fs : List (String × JValue)) :
    sizeOf fs < sizeOf (JValue.obj fs) := by
  simp only [JValue.obj.sizeOf_spec]
  omega

theorem sz_head_arr (x : JValue) (r : List JValue) :
    sizeOf x < sizeOf (JValue.arr (x :: r)) := by
  simp only [JValue.arr.sizeOf_spec, List.cons.sizeOf_spec]
  omega

theorem sz_fields_arr_obj (fs : List (String × JValue)) (r : List JValue) :
    sizeOf fs < sizeOf (JValue.arr (.obj fs :: r)) := by
  simp only [JValue.arr.sizeOf_spec, List.cons.sizeOf_spec, JValue.obj.sizeOf_spec]
  omega

theorem sz_elems_arr_arr (ys r : List JValue) :
    sizeOf ys < sizeOf (JValue.arr (.arr ys :: r)) := by
  simp only [JValue.arr.sizeOf_spec, List.cons.sizeOf_spec]
  omega

theorem sz_head_elems (v : JValue) (rest : List JValue) :
    sizeOf v < sizeOf (v :: rest) := by
  simp only [List.cons.sizeOf_spec]
  omega

/-! Destructuring of the goodness predicates. -/

/-- Unpacking of a good key. -/
theorem goodKey_spec (k : String) (h : goodKey k = true) :
    k ≠ "" ∧ '.' ∉ k.data ∧ jsNumericStr k = false := by
  simp only [goodKey, Bool.and_eq_true, decide_eq_true_eq, Bool.not_eq_true'] at h
  exact ⟨h.1.1, h.1.2, h.2⟩

/-- Unpacking of a good field-list head. -/
theorem goodFields_cons (k : String) (v : JValue) (rest : List (String × JValue))
    (h : goodFields ((k, v) :: rest) = true) :
    goodKey k = true ∧ goodVal v = true ∧ (∀ e ∈ rest, e.1 ≠ k) ∧
      goodFields rest = true := by
  simp only [goodFields, Bool.and_eq_true, List.all_eq_true, decide_eq_true_eq] at h
  exact ⟨h.1.1.1, h.1.1.2, h.1.2, h.2⟩

/-- A good object value is a nonempty good field list. -/
theorem goodVal_obj (fs : List (String × JValue)) (h : goodVal (.obj fs) = true) :
    fs ≠ [] ∧ goodFields fs = true := by
  cases fs with
  | nil => simp [goodVal] at h
  | cons f r => exact ⟨by simp, by simpa [goodVal] using h⟩

/-- A good array value is a singleton of a good value. -/
theorem goodVal_arr (xs : List JValue) (h : goodVal (.arr xs) = true) :
    ∃ y, xs = [y] ∧ goodVal y = true := by
  match xs with
  | [] => simp [goodVal] at h
  | [y] => exact ⟨y, rfl, by simpa [goodVal] using h⟩
  | x :: y :: r => simp [goodVal] at h

/-- Extension of an admissible path by one admissible segment. -/
theorem segsOk_append (ps : List String) (k : String) (h : SegsOk ps)
    (h1 : k ≠ "") (h2 : '.' ∉ k.data) : SegsOk (ps ++ [k]) := by
  intro s hs
  rcases List.mem_append.1 hs with h3 | h3
  · exact h s h3
  · simp only [List.mem_singleton] at h3
    subst h3
    exact ⟨h1, h2⟩

/-- The canonical index segment is admissible. -/
theorem segsOk_append_zero (ps : List String) (h : SegsOk ps) : SegsOk (ps ++ ["0"]) :=
  segsOk_append ps "0" h (by decide) (by decide)

/-- Rendering of the only array index reached from good values. -/
theorem toString_zero : toString (0 : Nat) = "0" := rfl

/-! Structural facts about the segment emission, each by strong induction on
the size of the traversed value. -/

/-- Pushing a head segment through the emission: emitting under an extended
path prefixes every emitted path. -/
theorem seg_shift (n : Nat) :
    (∀ fs : List (String × JValue), sizeOf fs ≤ n → ∀ p qs,
      segFieldsP fs (p :: qs) = (segFieldsP fs qs).map (fun e => (p :: e.1, e.2))) ∧
    (∀ xs : List JValue, sizeOf xs ≤ n → ∀ i p qs,
      segIdxP xs i (p :: qs) = (segIdxP xs i qs).map (fun e => (p :: e.1, e.2))) ∧
    (∀ v : JValue, sizeOf v ≤ n → ∀ p qs,
      segPlaceP v (p :: qs) = (segPlaceP v qs).map (fun e => (p :: e.1, e.2))) := by
  induction n using Nat.strong_induction_on with
  | _ n ih =>
  refine ⟨?_, ?_, ?_⟩
  · intro fs hsz p qs
    cases fs with
    | nil => simp [segFieldsP]
    | cons f rest =>
        obtain ⟨k, v⟩ := f
        have hv := (ih (sizeOf v) (lt_of_lt_of_le (sz_val_cons k v rest) hsz)).2.2
          v le_rfl p (qs ++ [k])
        have hr := (ih (sizeOf rest) (lt_of_lt_of_le (sz_rest_cons k v rest) hsz)).1
          rest le_rfl p qs
        simp only [segFieldsP, List.cons_append, hv, hr, List.map_append]
  · intro xs hsz i p qs
    cases xs with
    | nil => simp [segIdxP]
    | cons v rest =>
        have hv := (ih (sizeOf v) (lt_of_lt_of_le (sz_head_elems v rest) hsz)).2.2
          v le_rfl p (qs ++ [toString i])
        have hr := (ih (sizeOf rest) (by
            have : sizeOf rest < sizeOf (v :: rest) := by
              simp only [List.cons.sizeOf_spec]; omega
            exact lt_of_lt_of_le this hsz)).2.1
          rest le_rfl (i + 1) p qs
        simp only [segIdxP, List.cons_append, hv, hr, List.map_append]
  · intro v hsz p qs
    cases v with
    | str s => simp [segPlaceP]
    | num m => simp [segPlaceP]
    | bool b => simp [segPlaceP]
    | null => simp [segPlaceP]
    | undef => simp [segPlaceP]
    | obj fs =>
        have hf := (ih (sizeOf fs) (lt_of_lt_of_le (sz_fields_obj fs) hsz)).1
          fs le_rfl p qs
        simpa [segPlaceP] using hf
    | arr xs =>
        cases xs with
        | nil => simp [segPlaceP]
        | cons x r =>
            cases x with
            | obj fs =>
                have hf := (ih (sizeOf fs) (lt_of_lt_of_le (sz_fields_arr_obj fs r) hsz)).1
                  fs le_rfl p (qs ++ ["0"])
                simpa [segPlaceP, List.cons_append] using hf
            | arr ys =>
                have hy := (ih (sizeOf ys) (lt_of_lt_of_le (sz_elems_arr_arr ys r) hsz)).2.1
                  ys le_rfl 0 p (qs ++ ["0"])
                simpa [segPlaceP, List.cons_append] using hy
            | str s => simp [segPlaceP]
            | num m => simp [segPlaceP]
            | bool b => simp [segPlaceP]
            | null => simp [segPlaceP]
            | undef => simp [segPlaceP]

/-- Every emitted path extends the path prefix under which it was emitted;
under an object, the first added segment is a key of the object. -/
theorem seg_paths (n : Nat) :
    (∀ fs : List (String × JValue), sizeOf fs ≤ n → ∀ ps e, e ∈ segFieldsP fs ps →
      ∃ k tl, (∃ w, (k, w) ∈ fs) ∧ e.1 = ps ++ k :: tl) ∧
    (∀ xs : List JValue, sizeOf xs ≤ n → ∀ i ps e, e ∈ segIdxP xs i ps →
      ∃ j tl, e.1 = ps ++ toString (j : Nat) :: tl) ∧
    (∀ v : JValue, sizeOf v ≤ n → ∀ ps e, e ∈ segPlaceP v ps →
      ∃ tl, e.1 = ps ++ tl) := by
  induction n using Nat.strong_induction_on with
  | _ n ih =>
  refine ⟨?_, ?_, ?_⟩
  · intro fs hsz ps e he
    cases fs with
    | nil => simp [segFieldsP] at he
    | cons f rest =>
        obtain ⟨k, v⟩ := f
        simp only [segFieldsP, List.mem_append] at he
        rcases he with he | he
        · obtain ⟨tl, htl⟩ := (ih (sizeOf v) (lt_of_lt_of_le (sz_val_cons k v rest) hsz)).2.2
            v le_rfl (ps ++ [k]) e he
          exact ⟨k, tl, ⟨v, List.mem_cons_self _ _⟩, by simp [htl]⟩
        · obtain ⟨k2, tl, ⟨w, hw⟩, htl⟩ :=
            (ih (sizeOf rest) (lt_of_lt_of_le (sz_rest_cons k v rest) hsz)).1
              rest le_rfl ps e he
          exact ⟨k2, tl, ⟨w, List.mem_cons_of_mem _ hw⟩, htl⟩
  · intro xs hsz i ps e he
    cases xs with
    | nil => simp [segIdxP] at he
    | cons v rest =>
        simp only [segIdxP, List.mem_append] at he
        rcases he with he | he
        · obtain ⟨tl, htl⟩ := (ih (sizeOf v) (lt_of_lt_of_le (sz_head_elems v rest) hsz)).2.2
            v le_rfl (ps ++ [toString i]) e he
          exact ⟨i, tl, by simp [htl]⟩
        · obtain ⟨j, tl, htl⟩ := (ih (sizeOf rest) (by
              have : sizeOf rest < sizeOf (v :: rest) := by
                simp only [List.cons.sizeOf_spec]; omega
              exact lt_of_lt_of_le this hsz)).2.1
            rest le_rfl (i + 1) ps e he
          exact ⟨j, tl, htl⟩
  · intro v hsz ps e he
    cases v with
    | str s => simp only [segPlaceP, List.mem_singleton] at he; exact ⟨[], by simp [he]⟩
    | num m => simp only [segPlaceP, List.mem_singleton] at he; exact ⟨[], by simp [he]⟩
    | bool b => simp only [segPlaceP, List.mem_singleton] at he; exact ⟨[], by simp [he]⟩
    | null => simp only [segPlaceP, List.mem_singleton] at he; exact ⟨[], by simp [he]⟩
    | undef => simp only [segPlaceP, List.mem_singleton] at he; exact ⟨[], by simp [he]⟩
    | obj fs =>
        obtain ⟨k, tl, _, htl⟩ := (ih (sizeOf fs) (lt_of_lt_of_le (sz_fields_obj fs) hsz)).1
          fs le_rfl ps e (by simpa [segPlaceP] using he)
        exact ⟨k :: tl, htl⟩
    | arr xs =>
        cases xs with
        | nil => simp [segPlaceP] at he
        | cons x r =>
            cases x with
            | obj fs =>
                obtain ⟨k, tl, _, htl⟩ :=
                  (ih (sizeOf fs) (lt_of_lt_of_le (sz_fields_arr_obj fs r) hsz)).1
                    fs le_rfl (ps ++ ["0"]) e (by simpa [segPlaceP] using he)
                exact ⟨"0" :: k :: tl, by simp [htl]⟩
            | arr ys =>
                obtain ⟨j, tl, htl⟩ :=
                  (ih (sizeOf ys) (lt_of_lt_of_le (sz_elems_arr_arr ys r) hsz)).2.1
                    ys le_rfl 0 (ps ++ ["0"]) e (by simpa [segPlaceP] using he)
                exact ⟨"0" :: toString j :: tl, by simp [htl]⟩
            | str s =>
                simp only [segPlaceP, List.mem_singleton] at he
                exact ⟨["0"], by simp [he]⟩
            | num m =>
                simp only [segPlaceP, List.mem_singleton] at he
                exact ⟨["0"], by simp [he]⟩
            | bool b =>
                simp only [segPlaceP, List.mem_singleton] at he
                exact ⟨["0"], by simp [he]⟩
            | null =>
                simp only [segPlaceP, List.mem_singleton] at he
                exact ⟨["0"], by simp [he]⟩
            | undef =>
                simp only [segPlaceP, List.mem_singleton] at he
                exact ⟨["0"], by simp [he]⟩

/-- Every path emitted from a good value under an admissible prefix is
itself admissible (nonempty, dot-free segments). -/
theorem seg_segsOk (n : Nat) :
    (∀ fs : List (String × JValue), sizeOf fs ≤ n → goodFields fs = true →
      ∀ ps, SegsOk ps → ∀ e ∈ segFieldsP fs ps, SegsOk e.1) ∧
    (∀ xs : List JValue, sizeOf xs ≤ n → ∀ i, GIdx xs i →
      ∀ ps, SegsOk ps → ∀ e ∈ segIdxP xs i ps, SegsOk e.1) ∧
    (∀ v : JValue, sizeOf v ≤ n → goodVal v = true →
      ∀ ps, SegsOk ps → ∀ e ∈ segPlaceP v ps, SegsOk e.1) := by
  induction n using Nat.strong_induction_on with
  | _ n ih =>
  refine ⟨?_, ?_, ?_⟩
  · intro fs hsz hg ps hps e he
    cases fs with
    | nil => simp [segFieldsP] at he
    | cons f rest =>
        obtain ⟨k, v⟩ := f
        obtain ⟨hk, hv, _, hrest⟩ := goodFields_cons k v rest hg
        obtain ⟨hk1, hk2, _⟩ := goodKey_spec k hk
        simp only [segFieldsP, List.mem_append] at he
        rcases he with he | he
        · exact (ih (sizeOf v) (lt_of_lt_of_le (sz_val_cons k v rest) hsz)).2.2
            v le_rfl hv (ps ++ [k]) (segsOk_append ps k hps hk1 hk2) e he
        · exact (ih (sizeOf rest) (lt_of_lt_of_le (sz_rest_cons k v rest) hsz)).1
            rest le_rfl hrest ps hps e he
  · intro xs hsz i hgi ps hps e he
    rcases hgi with rfl | ⟨rfl, y, rfl, hy⟩
    · simp [segIdxP] at he
    · simp only [segIdxP, toString_zero, List.append_nil] at he
      exact (ih (sizeOf y) (lt_of_lt_of_le (sz_head_elems y []) hsz)).2.2
        y le_rfl hy (ps ++ ["0"]) (segsOk_append_zero ps hps) e he
  · intro v hsz hg ps hps e he
    cases v with
    | str s =>
        simp only [segPlaceP, List.mem_singleton] at he
        simp [he, hps]
    | num m =>
        simp only [segPlaceP, List.mem_singleton] at he
        simp [he, hps]
    | bool b =>
        simp only [segPlaceP, List.mem_singleton] at he
        simp [he, hps]
    | null =>
        simp only [segPlaceP, List.mem_singleton] at he
        simp [he, hps]
    | undef => simp [goodVal] at hg
    | obj fs =>
        obtain ⟨_, hgf⟩ := goodVal_obj fs hg
        exact (ih (sizeOf fs) (lt_of_lt_of_le (sz_fields_obj fs) hsz)).1
          fs le_rfl hgf ps hps e (by simpa [segPlaceP] using he)
    | arr xs =>
        obtain ⟨y, rfl, hy⟩ := goodVal_arr xs hg
        cases y with
        | obj fs =>
            obtain ⟨_, hgf⟩ := goodVal_obj fs hy
            exact (ih (sizeOf fs) (lt_of_lt_of_le (sz_fields_arr_obj fs []) hsz)).1
              fs le_rfl hgf (ps ++ ["0"]) (segsOk_append_zero ps hps) e
              (by simpa [segPlaceP] using he)
        | arr ys =>
            have hgi : GIdx ys 0 := by
              obtain ⟨z, rfl, hz⟩ := goodVal_arr ys hy
              exact Or.inr ⟨rfl, z, rfl, hz⟩
            exact (ih (sizeOf ys) (lt_of_lt_of_le (sz_elems_arr_arr ys []) hsz)).2.1
              ys le_rfl 0 hgi (ps ++ ["0"]) (segsOk_append_zero ps hps) e
              (by simpa [segPlaceP] using he)
        | str s =>
            simp only [segPlaceP, List.mem_singleton] at he
            simp only [he]
            exact segsOk_append_zero ps hps
        | num m =>
            simp only [segPlaceP, List.mem_singleton] at he
            simp only [he]
            exact segsOk_append_zero ps hps
        | bool b =>
            simp only [segPlaceP, List.mem_singleton] at he
            simp only [he]
            exact segsOk_append_zero ps hps
        | null =>
            simp only [segPlaceP, List.mem_singleton] at he
            simp only [he]
            exact segsOk_append_zero ps hps
        | undef => simp [goodVal] at hy

/-- A good value always emits at least one entry. -/
theorem seg_nonempty (n : Nat) :
    (∀ fs : List (String × JValue), sizeOf fs ≤ n → goodFields fs = true → fs ≠ [] →
      ∀ ps, segFieldsP fs ps ≠ []) ∧
    (∀ v : JValue, sizeOf v ≤ n → goodVal v = true → ∀ ps, segPlaceP v ps ≠ []) := by
  induction n using Nat.strong_induction_on with
  | _ n ih =>
  refine ⟨?_, ?_⟩
  · intro fs hsz hg hne ps
    cases fs with
    | nil => exact absurd rfl hne
    | cons f rest =>
        obtain ⟨k, v⟩ := f
        obtain ⟨_, hv, _, _⟩ := goodFields_cons k v rest hg
        have h1 := (ih (sizeOf v) (lt_of_lt_of_le (sz_val_cons k v rest) hsz)).2
          v le_rfl hv (ps ++ [k])
        simp only [segFieldsP]
        intro h
        exact h1 (List.append_eq_nil.1 h).1
  · intro v hsz hg ps
    cases v with
    | str s => simp [segPlaceP]
    | num m => simp [segPlaceP]
    | bool b => simp [segPlaceP]
    | null => simp [segPlaceP]
    | undef => simp [goodVal] at hg
    | obj fs =>
        obtain ⟨hne, hgf⟩ := goodVal_obj fs hg
        have := (ih (sizeOf fs) (lt_of_lt_of_le (sz_fields_obj fs) hsz)).1
          fs le_rfl hgf hne ps
        simpa [segPlaceP] using this
    | arr xs =>
        obtain ⟨y, rfl, hy⟩ := goodVal_arr xs hg
        cases y with
        | obj fs =>
            obtain ⟨hne, hgf⟩ := goodVal_obj fs hy
            have := (ih (sizeOf fs) (lt_of_lt_of_le (sz_fields_arr_obj fs []) hsz)).1
              fs le_rfl hgf hne (ps ++ ["0"])
            simpa [segPlaceP] using this
        | arr ys =>
            obtain ⟨z, rfl, hz⟩ := goodVal_arr ys hy
            have h1 := (ih (sizeOf z) (by
                have h2 : sizeOf z < sizeOf (JValue.arr [JValue.arr [z]]) := by
                  simp only [JValue.arr.sizeOf_spec, List.cons.sizeOf_spec]; omega
                exact lt_of_lt_of_le h2 hsz)).2
              z le_rfl hz ((ps ++ ["0"]) ++ [toString 0])
            simp only [segPlaceP, segIdxP]
            intro h
            exact h1 (List.append_eq_nil.1 h).1
        | str s => simp [segPlaceP]
        | num m => simp [segPlaceP]
        | bool b => simp [segPlaceP]
        | null => simp [segPlaceP]
        | undef => simp [goodVal] at hy

/-- On good values the sampled-singleton branch of the traversal emits the
same entries as descending directly into the element under the index
segment. -/
theorem segPlaceP_singleton (n : Nat) : ∀ y : JValue, sizeOf y ≤ n → goodVal y = true →
    ∀ ps, segPlaceP (.arr [y]) ps = segPlaceP y (ps ++ ["0"]) := by
  induction n using Nat.strong_induction_on with
  | _ n ih =>
  intro y hsz hy ps
  cases y with
  | str s => simp [segPlaceP]
  | num m => simp [segPlaceP]
  | bool b => simp [segPlaceP]
  | null => simp [segPlaceP]
  | undef => simp [goodVal] at hy
  | obj fs => simp [segPlaceP]
  | arr zs =>
      obtain ⟨z, rfl, hz⟩ := goodVal_arr zs hy
      have h1 := ih (sizeOf z) (lt_of_lt_of_le (sz_head_arr z []) hsz)
        z le_rfl hz (ps ++ ["0"])
      rw [h1]
      simp only [segPlaceP, segIdxP, toString_zero, List.append_nil]

/-! The bridge between the string-keyed flatten accumulator and the
segment-level emission. -/

/-- Writing a fresh key into an ordered map appends it. -/
theorem setKey_fresh_append (l : List (String × JValue)) (k : String) (v : JValue)
    (h : ∀ p ∈ l, p.1 ≠ k) : setKey l k v = l ++ [(k, v)] := by
  induction l with
  | nil => rfl
  | cons p rest ih =>
      obtain ⟨k0, v0⟩ := p
      have hk0 : k0 ≠ k := h (k0, v0) (List.mem_cons_self _ _)
      simp only [setKey, if_neg hk0, List.cons_append]
      rw [ih (fun q hq => h q (List.mem_cons_of_mem _ hq))]

/-- Freshness restricts along a sub-batch. -/
theorem freshIn_append_elim (A B : List (List String × JValue))
    (acc : List (String × JValue)) (h : FreshIn (A ++ B) acc) :
    FreshIn A acc ∧ FreshIn B acc := by
  constructor
  · intro e he p hp
    exact h e (List.mem_append.2 (Or.inl he)) p hp
  · intro e he p hp
    exact h e (List.mem_append.2 (Or.inr he)) p hp

/-- Freshness extends over newly appended entries whose joined keys differ
from the joined keys of the batch. -/
theorem freshIn_extend (B A : List (List String × JValue))
    (acc : List (String × JValue)) (hB : FreshIn B acc)
    (hAB : ∀ e ∈ B, ∀ e2 ∈ A, joinDots e.1 ≠ joinDots e2.1) :
    FreshIn B (acc ++ A.map jnE) := by
  intro e he p hp
  rcases List.mem_append.1 hp with hp | hp
  · exact hB e he p hp
  · obtain ⟨e2, he2, rfl⟩ := List.mem_map.1 hp
    exact hAB e he e2 he2

/-- The flatten traversal under a fresh accumulator appends exactly the
joined segment-level entries: the loop over fields, the loop over array
indices, and the placement of one value. -/
theorem bridge (n : Nat) :
    (∀ fs : List (String × JValue), sizeOf fs ≤ n → ∀ ps acc,
      goodFields fs = true → SegsOk ps → FreshIn (segFieldsP fs ps) acc →
      flatFieldsA fs (joinDots ps) acc = acc ++ (segFieldsP fs ps).map jnE) ∧
    (∀ xs : List JValue, sizeOf xs ≤ n → ∀ i ps acc,
      GIdx xs i → SegsOk ps → ps ≠ [] → FreshIn (segIdxP xs i ps) acc →
      flatIdxA xs i (joinDots ps) acc = acc ++ (segIdxP xs i ps).map jnE) ∧
    (∀ v : JValue, sizeOf v ≤ n → ∀ ps acc,
      goodVal v = true → SegsOk ps → ps ≠ [] → FreshIn (segPlaceP v ps) acc →
      flatPlace v (joinDots ps) acc = acc ++ (segPlaceP v ps).map jnE) := by
  induction n using Nat.strong_induction_on with
  | _ n ih =>
  refine ⟨?_, ?_, ?_⟩
  · intro fs hsz ps acc hg hps hfr
    cases fs with
    | nil => simp [flatFieldsA, segFieldsP]
    | cons f rest =>
        obtain ⟨k, v⟩ := f
        obtain ⟨hk, hv, hnodup, hrest⟩ := goodFields_cons k v rest hg
        obtain ⟨hk1, hk2, _⟩ := goodKey_spec k hk
        have hpsk : SegsOk (ps ++ [k]) := segsOk_append ps k hps hk1 hk2
        have hfrA : FreshIn (segPlaceP v (ps ++ [k])) acc :=
          (freshIn_append_elim _ _ _ (by simpa [segFieldsP] using hfr)).1
        have hfrB : FreshIn (segFieldsP rest ps) acc :=
          (freshIn_append_elim _ _ _ (by simpa [segFieldsP] using hfr)).2
        have hplace := (ih (sizeOf v) (lt_of_lt_of_le (sz_val_cons k v rest) hsz)).2.2
          v le_rfl (ps ++ [k]) acc hv hpsk (by simp) hfrA
        have hdisc : ∀ e ∈ segFieldsP rest ps, ∀ e2 ∈ segPlaceP v (ps ++ [k]),
            joinDots e.1 ≠ joinDots e2.1 := by
          intro e he e2 he2
          obtain ⟨k2, tl2, ⟨w2, hw2⟩, hpath2⟩ :=
            (seg_paths (sizeOf rest)).1 rest le_rfl ps e he
          obtain ⟨tl, hpath⟩ := (seg_paths (sizeOf v)).2.2 v le_rfl (ps ++ [k]) e2 he2
          have hpath3 : e2.1 = ps ++ k :: tl := by simp [hpath]
          have hk2k : k2 ≠ k := hnodup (k2, w2) hw2
          apply joinDots_ne
          · simp [hpath2]
          · simp [hpath3]
          · intro s hs
            rw [hpath2] at hs
            rcases List.mem_append.1 hs with hs | hs
            · exact (hps s hs).2
            · exact ((seg_segsOk (sizeOf rest)).1 rest le_rfl hrest ps hps e he
                s (by rw [hpath2]; exact List.mem_append.2 (Or.inr hs))).2
          · intro s hs
            rw [hpath3] at hs
            rcases List.mem_append.1 hs with hs | hs
            · exact (hps s hs).2
            · exact ((seg_segsOk (sizeOf v)).2.2 v le_rfl hv (ps ++ [k]) hpsk e2
                he2 s (by rw [hpath3]; exact List.mem_append.2 (Or.inr hs))).2
          · rw [hpath2, hpath3]
            intro heq
            have h5 := List.append_cancel_left heq
            injection h5 with h6 h7
            exact hk2k h6
        have hfields := (ih (sizeOf rest) (lt_of_lt_of_le (sz_rest_cons k v rest) hsz)).1
          rest le_rfl ps (acc ++ (segPlaceP v (ps ++ [k])).map jnE) hrest hps
          (freshIn_extend _ _ _ hfrB hdisc)
        have hkey := joinKey_eq ps k (fun s hs => (hps s hs).1)
        simp only [flatFieldsA, hkey, hplace, hfields, segFieldsP, List.map_append,
          List.append_assoc]
  · intro xs hsz i ps acc hgi hps hpne hfr
    rcases hgi with rfl | ⟨rfl, y, rfl, hy⟩
    · simp [flatIdxA, segIdxP]
    · have hne : joinDots ps ≠ "" := by
        cases ps with
        | nil => exact absurd rfl hpne
        | cons s r => exact joinDots_ne_empty s r (hps s (List.mem_cons_self _ _)).1
      have hkey : (if joinDots ps = "" then "0"
          else joinDots ps ++ "." ++ "0") = joinDots (ps ++ ["0"]) := by
        rw [if_neg hne, joinDots_append_single ps "0" hpne]
      have hfrY : FreshIn (segPlaceP y (ps ++ ["0"])) acc := by
        intro e he p hp
        refine hfr e ?_ p hp
        simp only [segIdxP, toString_zero, List.append_nil]
        exact he
      have hplace := (ih (sizeOf y) (lt_of_lt_of_le (sz_head_elems y []) hsz)).2.2
        y le_rfl (ps ++ ["0"]) acc hy (segsOk_append_zero ps hps) (by simp) hfrY
      simp only [flatIdxA, toString_zero, hkey, hplace, segIdxP, List.append_nil]
  · intro v hsz ps acc hg hps hpne hfr
    cases v with
    | str s =>
        simp only [flatPlace, segPlaceP, List.map_cons, List.map_nil, jnE]
        exact setKey_fresh_append acc _ _
          (fun p hp => (hfr (ps, JValue.str s) (by simp [segPlaceP]) p hp).symm)
    | num m =>
        simp only [flatPlace, segPlaceP, List.map_cons, List.map_nil, jnE]
        exact setKey_fresh_append acc _ _
          (fun p hp => (hfr (ps, JValue.num m) (by simp [segPlaceP]) p hp).symm)
    | bool b =>
        simp only [flatPlace, segPlaceP, List.map_cons, List.map_nil, jnE]
        exact setKey_fresh_append acc _ _
          (fun p hp => (hfr (ps, JValue.bool b) (by simp [segPlaceP]) p hp).symm)
    | null =>
        simp only [flatPlace, segPlaceP, List.map_cons, List.map_nil, jnE]
        exact setKey_fresh_append acc _ _
          (fun p hp => (hfr (ps, JValue.null) (by simp [segPlaceP]) p hp).symm)
    | undef => simp [goodVal] at hg
    | obj fs =>
        obtain ⟨_, hgf⟩ := goodVal_obj fs hg
        have h1 := (ih (sizeOf fs) (lt_of_lt_of_le (sz_fields_obj fs) hsz)).1
          fs le_rfl ps acc hgf hps (by simpa [segPlaceP] using hfr)
        simpa [flatPlace, segPlaceP] using h1
    | arr xs =>
        obtain ⟨y, rfl, hy⟩ := goodVal_arr xs hg
        have hdot : joinDots ps ++ ".0" = joinDots (ps ++ ["0"]) := by
          rw [joinDots_append_single ps "0" hpne,
            show (".0" : String) = "." ++ "0" from rfl, String.append_assoc]
        cases y with
        | obj fs =>
            obtain ⟨_, hgf⟩ := goodVal_obj fs hy
            have h1 := (ih (sizeOf fs) (lt_of_lt_of_le (sz_fields_arr_obj fs []) hsz)).1
              fs le_rfl (ps ++ ["0"]) acc hgf (segsOk_append_zero ps hps)
              (by simpa [segPlaceP] using hfr)
            simp only [flatPlace, segPlaceP, hdot]
            exact h1
        | arr ys =>
            have hgi : GIdx ys 0 := by
              obtain ⟨z, rfl, hz⟩ := goodVal_arr ys hy
              exact Or.inr ⟨rfl, z, rfl, hz⟩
            have h1 := (ih (sizeOf ys) (lt_of_lt_of_le (sz_elems_arr_arr ys []) hsz)).2.1
              ys le_rfl 0 (ps ++ ["0"]) acc hgi (segsOk_append_zero ps hps) (by simp)
              (by simpa [segPlaceP] using hfr)
            simp only [flatPlace, segPlaceP, hdot]
            exact h1
        | str s =>
            simp only [flatPlace, segPlaceP, List.map_cons, List.map_nil, jnE, hdot]
            exact setKey_fresh_append acc _ _
              (fun p hp => (hfr (ps ++ ["0"], JValue.str s) (by simp [segPlaceP]) p hp).symm)
        | num m =>
            simp only [flatPlace, segPlaceP, List.map_cons, List.map_nil, jnE, hdot]
            exact setKey_fresh_append acc _ _
              (fun p hp => (hfr (ps ++ ["0"], JValue.num m) (by simp [segPlaceP]) p hp).symm)
        | bool b =>
            simp only [flatPlace, segPlaceP, List.map_cons, List.map_nil, jnE, hdot]
            exact setKey_fresh_append acc _ _
              (fun p hp => (hfr (ps ++ ["0"], JValue.bool b) (by simp [segPlaceP]) p hp).symm)
        | null =>
            simp only [flatPlace, segPlaceP, List.map_cons, List.map_nil, jnE, hdot]
            exact setKey_fresh_append acc _ _
              (fun p hp => (hfr (ps ++ ["0"], JValue.null) (by simp [segPlaceP]) p hp).symm)
        | undef => simp [goodVal] at hy


/-! The insertion side: the per-row unflatten walk rebuilds a good value
from its emitted entries. -/

/-- Containers, the only values the walk descends into. -/
def isCont : JValue → Bool
  | .obj _ => true
  | .arr _ => true
  | _ => false

/-- One walk step over a flat entry, path already split. -/
def walkE (c : JValue) (e : List String × JValue) : Option JValue :=
  walkAssign c e.1 e.2

/-- A write slot: either an object missing the key, or the empty array with
the canonical zero index (the only array slot the codec ever writes). -/
def Slot (c : JValue) (k : String) : Prop :=
  (∃ fs, c = .obj fs ∧ lookupKey fs k = .undef) ∨ (k = "0" ∧ c = .arr [])

/-- Overwriting a key twice keeps only the second write. -/
theorem setKey_setKey (l : List (String × JValue)) (k : String) (v w : JValue) :
    setKey (setKey l k v) k w = setKey l k w := by
  induction l with
  | nil => simp [setKey]
  | cons p rest ih =>
      obtain ⟨k0, v0⟩ := p
      by_cases hk : k0 = k
      · subst hk
        simp [setKey]
      · simp only [setKey, if_neg hk]
        rw [ih]

/-- A key absent from a map reads as undefined. -/
theorem lookupKey_not_mem (l : List (String × JValue)) (k : String)
    (h : ∀ p ∈ l, p.1 ≠ k) : lookupKey l k = .undef := by
  induction l with
  | nil => rfl
  | cons p rest ih =>
      obtain ⟨k0, v0⟩ := p
      have hk0 : k0 ≠ k := h (k0, v0) (List.mem_cons_self _ _)
      simp only [lookupKey, if_neg hk0]
      exact ih (fun q hq => h q (List.mem_cons_of_mem _ hq))

/-- Every member key of a good field list is a good key. -/
theorem goodFields_key_mem (fs : List (String × JValue)) (hg : goodFields fs = true)
    (k : String) (w : JValue) (hm : (k, w) ∈ fs) : goodKey k = true := by
  induction fs with
  | nil => simp at hm
  | cons p rest ih =>
      obtain ⟨k0, v0⟩ := p
      obtain ⟨hk0, _, _, hrest⟩ := goodFields_cons k0 v0 rest hg
      rcases List.mem_cons.1 hm with h | h
      · injection h with h1 h2
        subst h1
        exact hk0
      · exact ih hrest h

/-- A slot reads as undefined. -/
theorem slot_getProp (c : JValue) (k : String) (hs : Slot c k) :
    getProp c k = .undef := by
  rcases hs with ⟨fs, rfl, hl⟩ | ⟨rfl, rfl⟩
  · exact hl
  · rfl

/-- Reading back a slot write. -/
theorem slot_getProp_set (c : JValue) (k : String) (hs : Slot c k) (d : JValue) :
    getProp (setProp c k d) k = d := by
  rcases hs with ⟨fs, rfl, hl⟩ | ⟨rfl, rfl⟩
  · exact lookupKey_setKey_self fs k d
  · rfl

/-- Writing a slot twice keeps only the second write. -/
theorem slot_set_set (c : JValue) (k : String) (hs : Slot c k) (d w : JValue) :
    setProp (setProp c k d) k w = setProp c k w := by
  rcases hs with ⟨fs, rfl, hl⟩ | ⟨rfl, rfl⟩
  · simp only [setProp]
    rw [setKey_setKey]
  · rfl

/-- A slot only exists on a container. -/
theorem slot_isCont (c : JValue) (k : String) (hs : Slot c k) : isCont c = true := by
  rcases hs with ⟨fs, rfl, _⟩ | ⟨rfl, rfl⟩ <;> rfl

/-- Writing into a container yields a container. -/
theorem setProp_isCont (c : JValue) (k : String) (v : JValue) (hc : isCont c = true) :
    isCont (setProp c k v) = true := by
  cases c with
  | obj fs => rfl
  | arr xs =>
      simp only [setProp]
      cases canonIdx k with
      | none => rfl
      | some i =>
          simp only [arrSetIdx]
          split <;> rfl
  | str s => simp [isCont] at hc
  | num m => simp [isCont] at hc
  | bool b => simp [isCont] at hc
  | null => simp [isCont] at hc
  | undef => simp [isCont] at hc

/-- The final assignment on a slot is the slot write. -/
theorem assignLast_slot (c : JValue) (k : String) (v : JValue) (hs : Slot c k) :
    assignLast c k v = some (setProp c k v) := by
  rcases hs with ⟨fs, rfl, _⟩ | ⟨rfl, rfl⟩
  · rfl
  · rfl

/-- Writing index zero of the empty array. -/
theorem setProp_arrnil (v : JValue) : setProp (.arr []) "0" v = .arr [v] := rfl

/-- The numeric test holds on the canonical zero segment. -/
theorem jsNumericStr_zero : jsNumericStr "0" = true := by rfl

/-- Reduction of the walk through an interior segment whose current value is
defined: no fresh container is created. -/
theorem walkAssign_cons_ndef (c : JValue) (p h : String) (t : List String)
    (v : JValue) (hc : isCont c = true) (hg : getProp c p ≠ .undef) :
    walkAssign c (p :: h :: t) v =
      (walkAssign (getProp c p) (h :: t) v).map (fun w => setProp c p w) := by
  cases c with
  | obj fs =>
      cases hx : getProp (JValue.obj fs) p with
      | undef => exact absurd hx hg
      | str s => simp only [walkAssign, hx]
      | num m => simp only [walkAssign, hx]
      | bool b => simp only [walkAssign, hx]
      | null => simp only [walkAssign, hx]
      | arr ys => simp only [walkAssign, hx]
      | obj fs2 => simp only [walkAssign, hx]
  | arr xs =>
      cases hx : getProp (JValue.arr xs) p with
      | undef => exact absurd hx hg
      | str s => simp only [walkAssign, hx]
      | num m => simp only [walkAssign, hx]
      | bool b => simp only [walkAssign, hx]
      | null => simp only [walkAssign, hx]
      | arr ys => simp only [walkAssign, hx]
      | obj fs2 => simp only [walkAssign, hx]
  | str s => simp [isCont] at hc
  | num m => simp [isCont] at hc
  | bool b => simp [isCont] at hc
  | null => simp [isCont] at hc
  | undef => simp [isCont] at hc

/-- Reduction of the walk through an interior segment whose current value is
undefined: a fresh container is created, picked by the numeric test on the
following segment. -/
theorem walkAssign_cons_create (c : JValue) (p h : String) (t : List String)
    (v : JValue) (hc : isCont c = true) (hg : getProp c p = .undef) :
    walkAssign c (p :: h :: t) v =
      (walkAssign (getProp (setProp c p (if jsNumericStr h then .arr [] else .obj [])) p)
          (h :: t) v).map
        (fun w => setProp (setProp c p (if jsNumericStr h then .arr [] else .obj [])) p w) := by
  cases c with
  | obj fs => simp only [walkAssign, hg, List.headI]
  | arr xs => simp only [walkAssign, hg, List.headI]
  | str s => simp [isCont] at hc
  | num m => simp [isCont] at hc
  | bool b => simp [isCont] at hc
  | null => simp [isCont] at hc
  | undef => simp [isCont] at hc

/-- A successful walk from a container returns a container. -/
theorem walk_isCont (ps : List String) (c v w : JValue) (hc : isCont c = true)
    (hw : walkAssign c ps v = some w) : isCont w = true := by
  cases ps with
  | nil =>
      simp only [walkAssign, Option.some.injEq] at hw
      rwa [← hw]
  | cons p rest =>
      cases rest with
      | nil =>
          cases c with
          | obj fs =>
              simp only [walkAssign, assignLast, Option.some.injEq] at hw
              rw [← hw]
              rfl
          | arr xs =>
              simp only [walkAssign, assignLast] at hw
              repeat split at hw
              all_goals simp only [Option.some.injEq] at hw
              all_goals rw [← hw]
              all_goals first
                | (simp only [arrSetIdx]; split <;> rfl)
                | rfl
                | exact setProp_isCont _ _ _ rfl
          | str s => simp [isCont] at hc
          | num m => simp [isCont] at hc
          | bool b => simp [isCont] at hc
          | null => simp [isCont] at hc
          | undef => simp [isCont] at hc
      | cons h t =>
          by_cases hg : getProp c p = .undef
          · rw [walkAssign_cons_create c p h t v hc hg] at hw
            obtain ⟨w2, hw2, rfl⟩ := Option.map_eq_some'.1 hw
            exact setProp_isCont _ _ _ (setProp_isCont _ _ _ hc)
          · rw [walkAssign_cons_ndef c p h t v hc hg] at hw
            obtain ⟨w2, hw2, rfl⟩ := Option.map_eq_some'.1 hw
            exact setProp_isCont _ _ _ hc


/-- Stripping the head segment added by a shift recovers the batch. -/
theorem map_tail_cons (k : String) (L : List (List String × JValue)) :
    (L.map (fun e => (k :: e.1, e.2))).map (fun e => (e.1.tail, e.2)) = L := by
  induction L with
  | nil => rfl
  | cons e L ih => simp [ih]

/-- Folding a batch of entries that all descend through the same already
written slot equals folding their tails inside the slot value and writing
the result back. -/
theorem foldDescend (k : String) (L : List (List String × JValue)) : ∀ (c d : JValue),
    Slot c k → isCont d = true →
    (∀ e ∈ L, ∃ h t, e.1 = k :: h :: t) →
    List.foldlM walkE (setProp c k d) L =
      (List.foldlM walkE d (L.map (fun e => (e.1.tail, e.2)))).map
        (fun w => setProp c k w) := by
  induction L with
  | nil =>
      intro c d hs hd hsh
      simp
  | cons e L ih =>
      intro c d hs hd hsh
      obtain ⟨h, t, he⟩ := hsh e (List.mem_cons_self _ _)
      have hcont : isCont (setProp c k d) = true := setProp_isCont _ _ _ (slot_isCont c k hs)
      have hget : getProp (setProp c k d) k = d := slot_getProp_set c k hs d
      have hndef : getProp (setProp c k d) k ≠ .undef := by
        rw [hget]
        intro hdu
        rw [hdu] at hd
        simp [isCont] at hd
      have hstep : walkE (setProp c k d) e =
          (walkAssign d (h :: t) e.2).map (fun w => setProp c k w) := by
        rw [walkE, he, walkAssign_cons_ndef _ k h t e.2 hcont hndef, hget]
        cases hw : walkAssign d (h :: t) e.2 with
        | none => rfl
        | some w2 =>
            simp only [Option.map_some']
            rw [slot_set_set c k hs d w2]
      rw [List.foldlM_cons, hstep, List.map_cons, List.foldlM_cons]
      have htail : walkE d (e.1.tail, e.2) = walkAssign d (h :: t) e.2 := by
        simp only [walkE, he, List.tail_cons]
      rw [htail]
      cases hw : walkAssign d (h :: t) e.2 with
      | none => simp
      | some w2 =>
          have hw2 : isCont w2 = true := walk_isCont (h :: t) d e.2 w2 hd hw
          simp only [Option.map_some']
          show List.foldlM walkE (setProp c k w2) L = _
          exact ih c w2 hs hw2 (fun e2 he2 => hsh e2 (List.mem_cons_of_mem _ he2))

/-- Folding a batch of entries that all descend through the same still
undefined slot first creates the fresh container picked by the numeric test
on the second segment of the first entry, then proceeds inside it. -/
theorem foldDescendCreate (k h0 : String) (t0 : List String) (v0 : JValue)
    (L1 : List (List String × JValue)) (c : JValue) (hs : Slot c k)
    (hsh : ∀ e ∈ L1, ∃ h t, e.1 = k :: h :: t) :
    List.foldlM walkE c ((k :: h0 :: t0, v0) :: L1) =
      (List.foldlM walkE (if jsNumericStr h0 then JValue.arr [] else JValue.obj [])
        (((k :: h0 :: t0, v0) :: L1).map (fun e => (e.1.tail, e.2)))).map
        (fun w => setProp c k w) := by
  have hccont : isCont c = true := slot_isCont c k hs
  have hget0 : getProp c k = .undef := slot_getProp c k hs
  have hfreshc : isCont (if jsNumericStr h0 then JValue.arr [] else JValue.obj []) = true := by
    split <;> rfl
  have hslotset :
      getProp (setProp c k (if jsNumericStr h0 then JValue.arr [] else JValue.obj [])) k
        = (if jsNumericStr h0 then JValue.arr [] else JValue.obj []) :=
    slot_getProp_set c k hs _
  have hstep : walkE c (k :: h0 :: t0, v0) =
      (walkAssign (if jsNumericStr h0 then JValue.arr [] else JValue.obj [])
        (h0 :: t0) v0).map (fun w => setProp c k w) := by
    show walkAssign c (k :: h0 :: t0) v0 = _
    rw [walkAssign_cons_create c k h0 t0 v0 hccont hget0, hslotset]
    cases hw : walkAssign (if jsNumericStr h0 then JValue.arr [] else JValue.obj [])
        (h0 :: t0) v0 with
    | none => rfl
    | some w2 =>
        simp only [Option.map_some']
        rw [slot_set_set c k hs _ w2]
  rw [List.foldlM_cons, hstep, List.map_cons, List.foldlM_cons]
  simp only [List.tail_cons]
  cases hw : walkAssign (if jsNumericStr h0 then JValue.arr [] else JValue.obj [])
      (h0 :: t0) v0 with
  | none => simp [walkE, hw]
  | some w2 =>
      have hw2 : isCont w2 = true := walk_isCont _ _ _ _ hfreshc hw
      have hE : walkE (if jsNumericStr h0 then JValue.arr [] else JValue.obj [])
          (h0 :: t0, v0) = some w2 := hw
      rw [hE]
      simp only [Option.map_some']
      show List.foldlM walkE (setProp c k w2) L1 = _
      exact foldDescend k L1 c w2 hs hw2 hsh

/-- Folding the entries emitted for one good value into a slot stores
exactly that value; folding the entries of a good field list into an object
extends it by exactly those fields. -/
theorem insert_main (n : Nat) :
    (∀ v : JValue, sizeOf v ≤ n → goodVal v = true → ∀ c k, Slot c k →
      List.foldlM walkE c (segPlaceP v [k]) = some (setProp c k v)) ∧
    (∀ fs : List (String × JValue), sizeOf fs ≤ n → goodFields fs = true →
      ∀ pre, (∀ e ∈ fs, ∀ p ∈ pre, p.1 ≠ e.1) →
      List.foldlM walkE (.obj pre) (segFieldsP fs []) = some (.obj (pre ++ fs))) := by
  induction n using Nat.strong_induction_on with
  | _ n ih =>
  refine ⟨?_, ?_⟩
  · intro v hsz hg c k hs
    cases v with
    | str s =>
        simp only [segPlaceP, List.foldlM_cons, List.foldlM_nil]
        rw [show walkE c ([k], JValue.str s) = assignLast c k (JValue.str s) from rfl,
          assignLast_slot c k _ hs]
        rfl
    | num m =>
        simp only [segPlaceP, List.foldlM_cons, List.foldlM_nil]
        rw [show walkE c ([k], JValue.num m) = assignLast c k (JValue.num m) from rfl,
          assignLast_slot c k _ hs]
        rfl
    | bool b =>
        simp only [segPlaceP, List.foldlM_cons, List.foldlM_nil]
        rw [show walkE c ([k], JValue.bool b) = assignLast c k (JValue.bool b) from rfl,
          assignLast_slot c k _ hs]
        rfl
    | null =>
        simp only [segPlaceP, List.foldlM_cons, List.foldlM_nil]
        rw [show walkE c ([k], JValue.null) = assignLast c k JValue.null from rfl,
          assignLast_slot c k _ hs]
        rfl
    | undef => simp [goodVal] at hg
    | obj fs =>
        obtain ⟨hne, hgf⟩ := goodVal_obj fs hg
        have hshift : segFieldsP fs [k] = (segFieldsP fs []).map (fun e => (k :: e.1, e.2)) :=
          (seg_shift (sizeOf fs)).1 fs le_rfl k []
        obtain ⟨e0, L1, hS⟩ := List.exists_cons_of_ne_nil
          ((seg_nonempty (sizeOf fs)).1 fs le_rfl hgf hne [])
        obtain ⟨k1, tl, ⟨w1, hw1⟩, hpath⟩ := (seg_paths (sizeOf fs)).1 fs le_rfl [] e0
          (by rw [hS]; exact List.mem_cons_self _ _)
        have hpath1 : e0.1 = k1 :: tl := by simpa using hpath
        have hjs : jsNumericStr k1 = false :=
          (goodKey_spec k1 (goodFields_key_mem fs hgf k1 w1 hw1)).2.2
        have hfresh : (if jsNumericStr k1 then JValue.arr [] else JValue.obj [])
            = JValue.obj [] := by rw [hjs]; rfl
        have hmap1 : segFieldsP fs [k] = (k :: k1 :: tl, e0.2) :: L1.map
            (fun e => (k :: e.1, e.2)) := by
          rw [hshift, hS, List.map_cons, hpath1]
        have hsh : ∀ e ∈ L1.map (fun e => (k :: e.1, e.2)), ∃ h t, e.1 = k :: h :: t := by
          intro e he
          obtain ⟨e1, he1, rfl⟩ := List.mem_map.1 he
          obtain ⟨k2, tl2, _, hp2⟩ := (seg_paths (sizeOf fs)).1 fs le_rfl [] e1
            (by rw [hS]; exact List.mem_cons_of_mem _ he1)
          exact ⟨k2, tl2, by simp at hp2; simp [hp2]⟩
        have htails : (((k :: k1 :: tl, e0.2) :: L1.map (fun e => (k :: e.1, e.2))).map
            (fun e => (e.1.tail, e.2))) = e0 :: L1 := by
          rw [List.map_cons, List.tail_cons, map_tail_cons]
          congr 1
          rw [← hpath1]
        have hinner := (ih (sizeOf fs) (lt_of_lt_of_le (sz_fields_obj fs) hsz)).2
          fs le_rfl hgf [] (by intro e he p hp; simp at hp)
        rw [show segPlaceP (JValue.obj fs) [k] = segFieldsP fs [k] from rfl, hmap1,
          foldDescendCreate k k1 tl e0.2 _ c hs hsh, htails, hfresh]
        rw [hS] at hinner
        rw [hinner]
        simp
    | arr xs =>
        obtain ⟨y, rfl, hy⟩ := goodVal_arr xs hg
        have hsingle : segPlaceP (JValue.arr [y]) [k] = segPlaceP y [k, "0"] :=
          segPlaceP_singleton (sizeOf y) y le_rfl hy [k]
        have hshift : segPlaceP y [k, "0"] = (segPlaceP y ["0"]).map
            (fun e => (k :: e.1, e.2)) := (seg_shift (sizeOf y)).2.2 y le_rfl k ["0"]
        obtain ⟨e0, L1, hS⟩ := List.exists_cons_of_ne_nil
          ((seg_nonempty (sizeOf y)).2 y le_rfl hy ["0"])
        obtain ⟨tl, hpath⟩ := (seg_paths (sizeOf y)).2.2 y le_rfl ["0"] e0
          (by rw [hS]; exact List.mem_cons_self _ _)
        have hpath1 : e0.1 = "0" :: tl := by simpa using hpath
        have hmap1 : segPlaceP y [k, "0"] = (k :: "0" :: tl, e0.2) :: L1.map
            (fun e => (k :: e.1, e.2)) := by
          rw [hshift, hS, List.map_cons, hpath1]
        have hsh : ∀ e ∈ L1.map (fun e => (k :: e.1, e.2)), ∃ h t, e.1 = k :: h :: t := by
          intro e he
          obtain ⟨e1, he1, rfl⟩ := List.mem_map.1 he
          obtain ⟨tl2, hp2⟩ := (seg_paths (sizeOf y)).2.2 y le_rfl ["0"] e1
            (by rw [hS]; exact List.mem_cons_of_mem _ he1)
          exact ⟨"0", tl2, by simp at hp2; simp [hp2]⟩
        have hfresh : (if jsNumericStr "0" then JValue.arr [] else JValue.obj [])
            = JValue.arr [] := by rw [jsNumericStr_zero]; rfl
        have htails : (((k :: "0" :: tl, e0.2) :: L1.map (fun e => (k :: e.1, e.2))).map
            (fun e => (e.1.tail, e.2))) = e0 :: L1 := by
          rw [List.map_cons, List.tail_cons, map_tail_cons]
          congr 1
          rw [← hpath1]
        have hinner := (ih (sizeOf y) (lt_of_lt_of_le (sz_head_arr y []) hsz)).1
          y le_rfl hy (JValue.arr []) "0" (Or.inr ⟨rfl, rfl⟩)
        rw [hsingle, hmap1, foldDescendCreate k "0" tl e0.2 _ c hs hsh, htails, hfresh]
        rw [hS] at hinner
        rw [hinner]
        simp [setProp_arrnil]
  · intro fs hsz hg pre hfr
    cases fs with
    | nil => simp [segFieldsP]
    | cons f rest =>
        obtain ⟨k1, w⟩ := f
        obtain ⟨hk1, hw, hnodup, hrest⟩ := goodFields_cons k1 w rest hg
        have hslot : Slot (JValue.obj pre) k1 :=
          Or.inl ⟨pre, rfl, lookupKey_not_mem pre k1
            (fun p hp => hfr (k1, w) (List.mem_cons_self _ _) p hp)⟩
        have hval := (ih (sizeOf w) (lt_of_lt_of_le (sz_val_cons k1 w rest) hsz)).1
          w le_rfl hw (JValue.obj pre) k1 hslot
        have hsetKey : setKey pre k1 w = pre ++ [(k1, w)] :=
          setKey_fresh_append pre k1 w (fun p hp => hfr (k1, w) (List.mem_cons_self _ _) p hp)
        have hfields := (ih (sizeOf rest) (lt_of_lt_of_le (sz_rest_cons k1 w rest) hsz)).2
          rest le_rfl hrest (pre ++ [(k1, w)]) (by
            intro e he p hp
            rcases List.mem_append.1 hp with hp | hp
            · exact hfr e (List.mem_cons_of_mem _ he) p hp
            · simp only [List.mem_singleton] at hp
              subst hp
              exact fun hcontra => hnodup e he hcontra.symm)
        rw [show segFieldsP ((k1, w) :: rest) [] = segPlaceP w [k1] ++ segFieldsP rest []
            from by simp [segFieldsP], List.foldlM_append, hval]
        show List.foldlM walkE (setProp (JValue.obj pre) k1 w) (segFieldsP rest []) = _
        rw [show setProp (JValue.obj pre) k1 w = JValue.obj (pre ++ [(k1, w)]) from by
          simp only [setProp]; rw [hsetKey], hfields]
        simp


/-- Replacing each split joined key by its segment path in the unflatten
fold, valid when splitting inverts joining on every entry. -/
theorem foldlM_split_join (L : List (List String × JValue))
    (hjk : ∀ e ∈ L, splitDots (joinDots e.1) = e.1) : ∀ b : JValue,
    List.foldlM (fun acc e => walkAssign acc (splitDots e.1) e.2) b (L.map jnE) =
      List.foldlM walkE b L := by
  induction L with
  | nil => intro b; rfl
  | cons e L ih =>
      intro b
      rw [List.map_cons, List.foldlM_cons, List.foldlM_cons]
      have h1 : walkAssign b (splitDots (jnE e).1) (jnE e).2 = walkE b e := by
        show walkAssign b (splitDots (joinDots e.1)) e.2 = walkE b e
        rw [hjk e (List.mem_cons_self _ _)]
        rfl
      rw [h1]
      cases hx : walkE b e with
      | none => rfl
      | some b2 => exact ih (fun e2 he2 => hjk e2 (List.mem_cons_of_mem _ he2)) b2

/-- C1: the round trip Unflatten(Flatten(x)) == x holds for every record x
whose keys are nonempty, dot-free, non-numeric and pairwise distinct, whose
nested objects are nonempty, and whose arrays hold exactly one such value -
but not, as the claim frozen from the spec says, for arrays with at most one
element: an empty array is dropped by flattenObject and cannot be rebuilt
(see the counterexample theorem). -/
theorem flatten_unflatten_roundtrip (x : JValue) (h : goodObj x = true) :
    unflattenRow (flattenObject x "") = some x := by
  cases x with
  | obj fs =>
      have hgf : goodFields fs = true := by simpa [goodObj] using h
      have hbr := (bridge (sizeOf fs)).1 fs le_rfl [] [] hgf
        (by intro s hs; simp at hs) (by intro e he p hp; simp at hp)
      have hflat : flattenObject (JValue.obj fs) "" = (segFieldsP fs []).map jnE := by
        show flatFieldsA fs "" [] = _
        rw [show ("" : String) = joinDots [] from rfl, hbr]
        simp
      have hjk : ∀ e ∈ segFieldsP fs [], splitDots (joinDots e.1) = e.1 := by
        intro e he
        obtain ⟨k1, tl, _, hpath⟩ := (seg_paths (sizeOf fs)).1 fs le_rfl [] e he
        have hnil : e.1 ≠ [] := by rw [hpath]; simp
        have hsegs := (seg_segsOk (sizeOf fs)).1 fs le_rfl hgf []
          (by intro s hs; simp at hs) e he
        exact splitDots_joinDots e.1 hnil (fun s hs => (hsegs s hs).2)
      have hins := (insert_main (sizeOf fs)).2 fs le_rfl hgf []
        (by intro e he p hp; simp at hp)
      rw [hflat]
      show List.foldlM (fun acc e => walkAssign acc (splitDots e.1) e.2) (JValue.obj [])
        ((segFieldsP fs []).map jnE) = some (JValue.obj fs)
      rw [foldlM_split_join _ hjk (JValue.obj []), hins]
      simp
  | str s => simp [goodObj] at h
  | num m => simp [goodObj] at h
  | bool b => simp [goodObj] at h
  | null => simp [goodObj] at h
  | undef => simp [goodObj] at h
  | arr xs => simp [goodObj] at h

/-- C1 counterexample to the claim as frozen: the record with one field
holding an empty array flattens to no entries, so unflattening returns the
empty object, not the original record. -/
theorem flatten_unflatten_empty_array_counterexample :
    unflattenRow (flattenObject (.obj [("a", .arr [])]) "") = some (.obj []) ∧
      JValue.obj [] ≠ JValue.obj [("a", JValue.arr [])] :=
  ⟨rfl, fun hcontra => List.noConfusion (JValue.obj.inj hcontra)⟩

/-- Concrete nested record exercising a scalar, a nested object and a
singleton array. -/
def xRtW : JValue :=
  .obj [("a", .num (.fin 1)), ("b", .obj [("c", .str "x")]), ("d", .arr [.num (.fin 2)])]

/-- Witness for C1: the concrete record satisfies the well-formedness
hypothesis, and the round trip reproduces it. -/
theorem flatten_unflatten_roundtrip_witness :
    goodObj xRtW = true ∧ unflattenRow (flattenObject xRtW "") = some xRtW :=
  ⟨rfl, flatten_unflatten_roundtrip xRtW rfl⟩

end JsonForge
